import Mathlib

/-!
# gorm-app-migrate: the migration engine over a ledger table

A shallow embedding of `migrator.go` and `utils.go`.  Go functions that take
the handle `db *gorm.DB` become functions that take and return the database
state `DB σ`; Go closures that assign to captured variables take and return
those variables.  The type `σ` stands for everything in the database except
the ledger table: it is what the `Up` and `Down` operations of a migration
act on.
-/

namespace GormAppMigrate

/-! ## Errors -/

/-- Go `error` values: the sentinel `gorm.ErrRecordNotFound`, `errors.New`,
and `errors.Wrap` around a cause. -/
inductive Error where
  | ErrRecordNotFound : Error
  | New (msg : String) : Error
  | Wrap (cause : Error) (msg : String) : Error
deriving DecidableEq, Repr

/-- The test `errors.Is(err, gorm.ErrRecordNotFound)` on a non-nil error; it
follows the chain of wrapped causes. -/
def Error.isRecordNotFound : Error → Bool
  | .ErrRecordNotFound => true
  | .New _ => false
  | .Wrap cause _ => cause.isRecordNotFound

/-- The call `errors.Wrap(err, msg)`: nil stays nil. -/
def Wrap (err : Option Error) (msg : String) : Option Error :=
  err.map (fun e => Error.Wrap e msg)

/-- The test `errors.Is(err, gorm.ErrRecordNotFound)` on a possibly nil error. -/
def IsRecordNotFound (err : Option Error) : Bool :=
  match err with
  | none => false
  | some e => e.isRecordNotFound

/-- `utils.go`, `IsDBError`: a real error is one that is not nil and is not
"record not found".  The argument is the `Error` field of the result. -/
def IsDBError (resultError : Option Error) : Bool :=
  resultError != none && !IsRecordNotFound resultError

/-! ## Data model -/

/-- Database model (`type Migration struct`): one row of the ledger table. -/
structure Migration where
  ID : Nat
  MigrationID : String
  AppName : String
deriving DecidableEq, Repr

/-- The Go zero value `Migration{}` of `var dbMigration Migration`. -/
def Migration.zero : Migration := ⟨0, "", ""⟩

/-- A migration unit (`GormMigration`, as built by `InlineGormMigration`):
an identifier and two operations.  An operation receives the non-ledger part
of the database and yields its error result and the new contents. -/
structure GormMigration (σ : Type) where
  ID : String
  OnUp : σ → Option Error × σ
  OnDown : σ → Option Error × σ

/-- `app.go`, `Application`: a name and the declared migrations, in order. -/
structure Application (σ : Type) where
  Name : String
  Migrations : List (GormMigration σ)

/-- Represents a migration status. -/
structure MigrationStatus (σ : Type) where
  App : Application σ
  Migration : GormMigration σ
  Applied : Bool

/-- Represents status of several migrations. -/
abbrev MigrationsStatus (σ : Type) := List (MigrationStatus σ)

/-! ## The database behind the handle `db` -/

/-- The database as seen through the root handle `db`: the rows of the ledger
table in primary-key order, the next key the table hands out, the rest of the
database, and the failures the driver is going to report: `fault n` tells
whether the `n`-th store statement from now fails. -/
structure DB (σ : Type) where
  rows : List Migration
  nextID : Nat
  schema : σ
  fault : Nat → Bool

/-- The error of a store statement that the driver fails. -/
def driverError : Error := Error.New "driver error"

/-- One store statement is sent: report whether it fails and move on to the
next entry of the failure plan. -/
def DB.tick {σ : Type} (db : DB σ) : Bool × DB σ :=
  (db.fault 0, { db with fault := fun n => db.fault (n + 1) })

/-- `GetID` of a migration. -/
def GormMigration.GetID {σ : Type} (i : GormMigration σ) : String := i.ID

/-- `Up(db)`: runs `OnUp` on the database the handle `db` points to. -/
def GormMigration.Up {σ : Type} (i : GormMigration σ) (db : DB σ) : Option Error × DB σ :=
  match i.OnUp db.schema with
  | (err, s) => (err, { db with schema := s })

/-- `Down(db)`: runs `OnDown` on the database the handle `db` points to. -/
def GormMigration.Down {σ : Type} (i : GormMigration σ) (db : DB σ) : Option Error × DB σ :=
  match i.OnDown db.schema with
  | (err, s) => (err, { db with schema := s })

/-- Modelled from the spec: the gorm call `db.AutoMigrate(&Migration{})`, the
Ledger Store operation `ensure_schema()`: idempotently creates the ledger
table; it fails only when the store rejects the statement. -/
def AutoMigrate {σ : Type} (db : DB σ) : Option Error × DB σ :=
  match db.tick with
  | (true, db) => (some driverError, db)
  | (false, db) => (none, db)

/-- Modelled from the spec: the gorm call
`db.Where(&Migration{MigrationID: id, AppName: app}).First(&dbMigration)`, the
Ledger Store operation `find(app_name, migration_id)`: the first row, in
primary-key order, with that identifier and that application name.  The
result is the destination `dbMigration` (left at its zero value when nothing
is found) and the `Error` field: nil, `ErrRecordNotFound`, or a driver
error. -/
def First {σ : Type} (db : DB σ) (migrationID appName : String) :
    (Migration × Option Error) × DB σ :=
  match db.tick with
  | (true, db) => ((Migration.zero, some driverError), db)
  | (false, db) =>
    match db.rows.find? (fun r => r.MigrationID == migrationID && r.AppName == appName) with
    | some r => ((r, none), db)
    | none => ((Migration.zero, some Error.ErrRecordNotFound), db)

/-- Modelled from the spec: the gorm call
`db.Where(&Migration{AppName: app}).Find(&dbMigrations)`, the Ledger Store
operation `find_all(app_name)`: every row of that application. -/
def Find {σ : Type} (db : DB σ) (appName : String) : (List Migration × Option Error) × DB σ :=
  match db.tick with
  | (true, db) => (([], some driverError), db)
  | (false, db) => ((db.rows.filter (fun r => r.AppName == appName), none), db)

/-- Modelled from the spec: the gorm call
`db.Create(&Migration{MigrationID: id, AppName: app})`, the Ledger Store
operation `insert(app_name, migration_id)`: appends a row under a fresh
primary key; a failed statement inserts nothing. -/
def Create {σ : Type} (db : DB σ) (migrationID appName : String) : Option Error × DB σ :=
  match db.tick with
  | (true, db) => (some driverError, db)
  | (false, db) =>
    (none, { db with rows := db.rows ++ [⟨db.nextID, migrationID, appName⟩],
                     nextID := db.nextID + 1 })

/-- Modelled from the spec: the gorm call `db.Delete(&dbMigration)`, the
Ledger Store operation `delete(record)`: removes the row with the primary key
of the record.  A record whose primary key is the zero value names no row:
gorm refuses that statement (it has no condition) and deletes nothing.  A
failed statement deletes nothing. -/
def Delete {σ : Type} (db : DB σ) (dbMigration : Migration) : Option Error × DB σ :=
  match db.tick with
  | (true, db) => (some driverError, db)
  | (false, db) =>
    if dbMigration.ID = 0 then (some (Error.New "WHERE conditions required"), db)
    else (none, { db with rows := db.rows.filter (fun r => r.ID != dbMigration.ID) })

/-! ## Transactions -/

/-- The transaction handle `tx` that `db.Transaction` gives to its closure.
It holds the statements issued through `tx`: they are not visible on the
root handle until the transaction commits. -/
structure Tx (σ : Type) where
  pending : DB σ → DB σ

/-- Modelled from the spec: `open_transaction()`, the `db.Begin()` inside
`db.Transaction`: a new transaction with no statement yet. -/
def Begin {σ : Type} (db : DB σ) : (Option Error × Tx σ) × DB σ :=
  match db.tick with
  | (true, db) => ((some driverError, ⟨id⟩), db)
  | (false, db) => ((none, ⟨id⟩), db)

/-- A data statement issued through the transaction handle: it joins the
pending statements of the transaction. -/
def Tx.Exec {σ : Type} (tx : Tx σ) (stmt : DB σ → DB σ) : Tx σ :=
  ⟨fun db => stmt (tx.pending db)⟩

/-- Modelled from the spec: `commit`: the statements issued through the
transaction take effect; when the commit fails none of them does. -/
def Tx.Commit {σ : Type} (tx : Tx σ) (db : DB σ) : Option Error × DB σ :=
  match db.tick with
  | (true, db) => (some driverError, db)
  | (false, db) => (none, tx.pending db)

/-- Modelled from the spec: `rollback`: the statements issued through the
transaction are dropped.  What was done on another handle is not part of the
transaction and stays. -/
def Tx.Rollback {σ : Type} (_tx : Tx σ) (db : DB σ) : DB σ :=
  db.tick.2

/-- Modelled from the spec: the scoped-transaction primitive, the gorm call
`db.Transaction(fc)` on the root handle: begin, run `fc(tx)`, commit when it
returns nil and roll back when it returns an error.  The closure receives the
transaction handle, the variables it captures and the database; it returns
its error, the handle with the statements it issued through it, and the
captured variables. -/
def Transaction {σ α : Type} (db : DB σ) (captured : α)
    (fc : Tx σ → α → DB σ → (Option Error × Tx σ × α) × DB σ) : (Option Error × α) × DB σ :=
  match Begin db with
  | ((some err, _), db) => ((some err, captured), db)
  | ((none, tx), db) =>
    match fc tx captured db with
    | ((some err, tx, captured), db) => ((some err, captured), tx.Rollback db)
    | ((none, tx, captured), db) =>
      match tx.Commit db with
      | (err, db) => ((err, captured), db)

/-! ## The engine (`migrator.go`) -/

/-- `applyMigration`.  The closure never uses its parameter `tx`: `Up`,
`Down`, `Create`, `First` and `Delete` are all called on `db`.  In the down
branch the result of `db.Delete` is dropped and the second `IsDBError` looks
again at the result of `First`. -/
def applyMigration {σ : Type} (db : DB σ) (app : Application σ) (migration : GormMigration σ)
    (goUp : Bool) : Except Error (MigrationStatus σ) × DB σ :=
  let applied := false
  match Transaction db applied (fun tx applied db =>
    -- run migration
    if goUp then
      match migration.Up db with
      | (some err, db) => ((some err, tx, applied), db)
      | (none, db) =>
        -- insert migration row in db
        match Create db migration.GetID app.Name with
        | (resultError, db) => ((resultError, tx, true), db)
    else
      match migration.Down db with
      | (some err, db) => ((some err, tx, applied), db)
      | (none, db) =>
        match First db migration.GetID app.Name with
        | ((dbMigration, resultError), db) =>
          if IsDBError resultError then
            ((Wrap resultError "cannot fetch migration", tx, applied), db)
          else
            match Delete db dbMigration with
            | (_, db) =>
              if IsDBError resultError then
                ((Wrap resultError "cannot delete migration record", tx, applied), db)
              else ((none, tx, applied), db)) with
  | ((some err, _), db) => (.error (Error.Wrap err "cannot exec transaction"), db)
  | ((none, applied), db) => (.ok ⟨app, migration, applied⟩, db)

/-- The body of the `for _, m := range app.Migrations()` loop of `Migrate`,
over the migrations still to visit. -/
def Migrate.loop {σ : Type} (app : Application σ) :
    List (GormMigration σ) → MigrationsStatus σ → DB σ →
      (Option Error × MigrationsStatus σ) × DB σ
  | [], states, db => ((none, states), db)
  | m :: rest, states, db =>
    -- check if migration is applied
    match First db m.GetID app.Name with
    | ((_, resultError), db) =>
      if IsDBError resultError then
        ((Wrap resultError "cannot fetch migration", states), db)
      else if IsRecordNotFound resultError then
        -- if migrations not applied
        match applyMigration db app m true with
        | (.error err, db) =>
          ((some (Error.Wrap err ("cannot apply migration: " ++ m.GetID)), states), db)
        | (.ok state, db) => Migrate.loop app rest (states ++ [state]) db
      else Migrate.loop app rest states db

/-- `Migrate`: automatically migrate the database with known migrations. -/
def Migrate {σ : Type} (db : DB σ) (app : Application σ) :
    (MigrationsStatus σ × Option Error) × DB σ :=
  let states : MigrationsStatus σ := []
  match AutoMigrate db with
  | (some err, db) => ((states, some (Error.Wrap err "cannot migrate Migration model")), db)
  | (none, db) =>
    match Transaction db states
        (fun tx states db =>
          match Migrate.loop app app.Migrations states db with
          | ((err, states), db) => ((err, tx, states), db)) with
    | ((some err, states), db) =>
      ((states, some (Error.Wrap err "error in migration transaction")), db)
    | ((none, states), db) => ((states, none), db)

/-- The `check exists` loop of `MigrateTo`. -/
def MigrateTo.checkExists {σ : Type} (migrationID : String) : List (GormMigration σ) → Bool
  | [] => false
  | m :: rest => if migrationID == m.GetID then true else MigrateTo.checkExists migrationID rest

/-- The closure `applied` of `MigrateTo` and `ShowMigrationsForApp`: whether
an identifier occurs among the rows read at the start of the call. -/
def applied (dbMigrations : List Migration) (fn : String) : Bool :=
  match dbMigrations with
  | [] => false
  | m :: rest => if fn == m.MigrationID then true else applied rest fn

/-- The reverse loop of `MigrateTo`, `for i := len - 1; i >= 0; i--`, over the
migrations still to visit, last declared first. -/
def MigrateTo.reverseLoop {σ : Type} (app : Application σ) (migrationID : String)
    (dbMigrations : List Migration) :
    List (GormMigration σ) → MigrationsStatus σ → DB σ →
      (Option Error × MigrationsStatus σ) × DB σ
  | [], states, db => ((none, states), db)
  | m :: rest, states, db =>
    if m.GetID == migrationID then ((none, states), db) -- we are good
    else if applied dbMigrations m.GetID then
      match applyMigration db app m false with
      | (.error err, db) => ((some err, states), db)
      | (.ok state, db) =>
        MigrateTo.reverseLoop app migrationID dbMigrations rest (states ++ [state]) db
    else MigrateTo.reverseLoop app migrationID dbMigrations rest states db

/-- The forward loop of `MigrateTo`, over the migrations still to visit. -/
def MigrateTo.forwardLoop {σ : Type} (app : Application σ) (migrationID : String)
    (dbMigrations : List Migration) :
    List (GormMigration σ) → MigrationsStatus σ → DB σ →
      (Option Error × MigrationsStatus σ) × DB σ
  | [], states, db => ((none, states), db)
  | m :: rest, states, db =>
    if !applied dbMigrations m.GetID then
      match applyMigration db app m true with
      | (.error err, db) => ((some err, states), db)
      | (.ok state, db) =>
        if m.GetID == migrationID then ((none, states ++ [state]), db) -- we are good
        else MigrateTo.forwardLoop app migrationID dbMigrations rest (states ++ [state]) db
    else if m.GetID == migrationID then ((none, states), db) -- we are good
    else MigrateTo.forwardLoop app migrationID dbMigrations rest states db

/-- `MigrateTo`: migrate an app to a specified migration ID. -/
def MigrateTo {σ : Type} (db : DB σ) (app : Application σ) (migrationID : String) :
    (MigrationsStatus σ × Option Error) × DB σ :=
  let states : MigrationsStatus σ := []
  match AutoMigrate db with
  | (some err, db) => ((states, some (Error.Wrap err "cannot migrate Migration model")), db)
  | (none, db) =>
    match Find db app.Name with
    | ((dbMigrations, resultError), db) =>
      if IsDBError resultError then
        ((states, Wrap resultError "cannot retrieve migrations"), db)
      else
        -- check exists
        let exists_ := MigrateTo.checkExists migrationID app.Migrations
        if !exists_ && migrationID != "zero" then
          ((states, some (Error.New ("migration do not exists: " ++ migrationID))), db)
        else
          match Transaction db states
              (fun tx states db =>
                -- if applied, unapply migration after
                if migrationID == "zero" || applied dbMigrations migrationID then
                  match MigrateTo.reverseLoop app migrationID dbMigrations
                      app.Migrations.reverse states db with
                  | ((err, states), db) => ((err, tx, states), db)
                else
                  match MigrateTo.forwardLoop app migrationID dbMigrations
                      app.Migrations states db with
                  | ((err, states), db) => ((err, tx, states), db)) with
          | ((some err, states), db) =>
            ((states, some (Error.Wrap err "error in migration transaction")), db)
          | ((none, states), db) => ((states, none), db)

/-- `ShowMigrationsForApp`: show migrations status. -/
def ShowMigrationsForApp {σ : Type} (db : DB σ) (app : Application σ) :
    (MigrationsStatus σ × Option Error) × DB σ :=
  let states : MigrationsStatus σ := []
  match AutoMigrate db with
  | (some err, db) => ((states, some (Error.Wrap err "cannot migrate Migration model")), db)
  | (none, db) =>
    match Find db app.Name with
    | ((dbMigrations, resultError), db) =>
      if IsDBError resultError then
        ((states, Wrap resultError "cannot retrieve migrations"), db)
      else
        ((states ++ app.Migrations.map
            (fun m => ⟨app, m, applied dbMigrations m.GetID⟩), none), db)


/-! ## Vocabulary of the properties -/

/-- Whether the ledger holds a row for `(appName, migrationID)`. -/
def hasRecord (rows : List Migration) (appName migrationID : String) : Bool :=
  rows.any (fun r => r.MigrationID == migrationID && r.AppName == appName)

/-- The failure plan of a store that never fails. -/
def noFault : Nat → Bool := fun _ => false

/-- The ledger rows after one revert on a store that does not fail: the
lookup of `First` followed by the `Delete` of what it found. -/
def deleteRecord (rows : List Migration) (appName migrationID : String) : List Migration :=
  match rows.find? (fun r => r.MigrationID == migrationID && r.AppName == appName) with
  | some r => if r.ID = 0 then rows else rows.filter (fun x => x.ID != r.ID)
  | none => rows

/-- The units a sync applies: those without a ledger row for the application
whose identifier does not repeat one met earlier in the list (`seen`). -/
def newlyApplied {σ : Type} (rows : List Migration) (appName : String) :
    List String → List (GormMigration σ) → List (GormMigration σ)
  | _, [] => []
  | seen, m :: rest =>
    if hasRecord rows appName m.ID || decide (m.ID ∈ seen) then
      newlyApplied rows appName seen rest
    else m :: newlyApplied rows appName (m.ID :: seen) rest

/-- The rows inserted for a list of units, keys counted from `n`. -/
def recordsFrom {σ : Type} (appName : String) : Nat → List (GormMigration σ) → List Migration
  | _, [] => []
  | n, m :: rest => ⟨n, m.ID, appName⟩ :: recordsFrom appName (n + 1) rest

/-- Running the `up` operations of a list of units, in order. -/
def runUp {σ : Type} (s : σ) : List (GormMigration σ) → σ
  | [] => s
  | m :: rest => runUp (m.OnUp s).2 rest

/-- Running the `down` operations of a list of units, in order. -/
def runDown {σ : Type} (s : σ) : List (GormMigration σ) → σ
  | [] => s
  | m :: rest => runDown (m.OnDown s).2 rest

/-- The declared units from the start up to and including the target. -/
def upToTarget {σ : Type} (migrationID : String) :
    List (GormMigration σ) → List (GormMigration σ)
  | [] => []
  | m :: rest => if m.ID = migrationID then [m] else m :: upToTarget migrationID rest

/-- What reverting a list of units, in order, removes from the ledger rows. -/
def deleteRecords {σ : Type} (appName : String) :
    List Migration → List (GormMigration σ) → List Migration
  | rows, [] => rows
  | rows, m :: rest => deleteRecords appName (deleteRecord rows appName m.ID) rest

/-- The invariants of the ledger table: primary keys are positive, below the
next key to hand out and pairwise distinct, and there is at most one row per
`(app_name, migration_id)` pair. -/
def WellFormed (rows : List Migration) (nextID : Nat) : Prop :=
  0 < nextID ∧ (∀ r ∈ rows, 0 < r.ID ∧ r.ID < nextID) ∧
    (rows.map (fun r => r.ID)).Nodup ∧
    (rows.map (fun r => (r.AppName, r.MigrationID))).Nodup

/-- Every primary key of the ledger table is positive. -/
def KeysPositive (rows : List Migration) : Prop := ∀ r ∈ rows, 0 < r.ID

/-- The primary keys of the ledger table are pairwise distinct. -/
def KeysDistinct (rows : List Migration) : Prop := (rows.map (fun r => r.ID)).Nodup

/-- The ledger holds at most one row per `(app_name, migration_id)` pair. -/
def OneRowPerPair (rows : List Migration) : Prop :=
  (rows.map (fun r => (r.AppName, r.MigrationID))).Nodup

/-- A row with the primary key zero, if there is one, is the row of the first
declared unit of the application. -/
def ZeroKeyIsFirst {σ : Type} (rows : List Migration) (app : Application σ) : Prop :=
  ∀ r ∈ rows, r.ID = 0 →
    r.AppName = app.Name ∧ app.Migrations.head?.map (fun m => m.ID) = some r.MigrationID

/-- What holds of the ledger along a sequence of calls of one application that
starts from an empty ledger: distinct primary keys below the next key, at most
one row per pair, and only the first declared unit can sit under the key zero. -/
def Reachable {σ : Type} (rows : List Migration) (nextID : Nat) (app : Application σ) : Prop :=
  KeysDistinct rows ∧ (∀ r ∈ rows, r.ID < nextID) ∧ OneRowPerPair rows ∧
    ZeroKeyIsFirst rows app

/-- The units of a list that have a ledger row for the application. -/
def appliedUnits {σ : Type} (rows : List Migration) (appName : String)
    (ms : List (GormMigration σ)) : List (GormMigration σ) :=
  ms.filter (fun m => hasRecord rows appName m.ID)

/-- The ledger rows without the rows of the application for a list of units. -/
def withoutRecords {σ : Type} (rows : List Migration) (appName : String)
    (ms : List (GormMigration σ)) : List Migration :=
  rows.filter (fun r => !(r.AppName == appName && decide (r.MigrationID ∈ ms.map (fun m => m.ID))))

/-- The ledger holds a row of the application for exactly the first `k`
declared unit identifiers. -/
def AppliedRun {σ : Type} (rows : List Migration) (app : Application σ) (k : Nat) : Prop :=
  ∀ i ∈ app.Migrations.map (fun m => m.ID),
    hasRecord rows app.Name i = true ↔ i ∈ (app.Migrations.map (fun m => m.ID)).take k

/-- A call of one of the three public operations. -/
inductive Call where
  | migrate : Call
  | migrateTo (migrationID : String) : Call
  | showMigrationsForApp : Call

/-- Running a call on a database. -/
def Call.run {σ : Type} (c : Call) (db : DB σ) (app : Application σ) :
    (MigrationsStatus σ × Option Error) × DB σ :=
  match c with
  | .migrate => Migrate db app
  | .migrateTo migrationID => MigrateTo db app migrationID
  | .showMigrationsForApp => ShowMigrationsForApp db app

/-- Running a sequence of calls, each on the database the previous one left;
the result is `none` as soon as a call returns an error. -/
def runCalls {σ : Type} (app : Application σ) : List Call → DB σ → Option (DB σ)
  | [], db => some db
  | c :: rest, db =>
    match c.run db app with
    | ((_, none), db1) => runCalls app rest db1
    | ((_, some _), _) => none

/-! ## Sample inputs -/

/-- An operation that succeeds and logs its name. -/
def okOp (tag : String) : List String → Option Error × List String :=
  fun s => (none, s ++ [tag])

/-- An operation that fails and changes nothing. -/
def failOp (tag : String) : List String → Option Error × List String :=
  fun s => (some (Error.New tag), s)

/-- A unit whose two operations succeed. -/
def okUnit (i : String) : GormMigration (List String) :=
  ⟨i, okOp ("up " ++ i), okOp ("down " ++ i)⟩

/-- A unit whose `up` fails. -/
def failUnit (i : String) : GormMigration (List String) :=
  ⟨i, failOp ("up " ++ i), okOp ("down " ++ i)⟩

/-- The application of `migrator_test.go`. -/
def UserApp : Application (List String) :=
  ⟨"users", [okUnit "0001_add_user", okUnit "0002_add_user_first_name"]⟩

/-- An empty database whose store never fails. -/
def emptyDB : DB (List String) := ⟨[], 1, [], noFault⟩

/-- What a status list shows: unit identifier and applied flag. -/
def summary {σ : Type} (states : MigrationsStatus σ) : List (String × Bool) :=
  states.map (fun st => (st.Migration.ID, st.Applied))

/-- A database in which the unit `a` is applied, and the sixth
store statement from now fails, which in `MigrateTo "zero"` is the `Delete`. -/
def deleteFailsDB : DB (List String) := ⟨[⟨1, "a", "users"⟩], 2, [], fun n => n == 5⟩

/-- An application with the single unit `a`. -/
def oneUnit : Application (List String) := ⟨"users", [okUnit "a"]⟩

/-- An application with the units `a`, `b`. -/
def twoUnits : Application (List String) := ⟨"users", [okUnit "a", okUnit "b"]⟩

/-- An application with the units `a`, `b`, `c`. -/
def threeUnits : Application (List String) :=
  ⟨"users", [okUnit "a", okUnit "b", okUnit "c"]⟩

/-- Both units of `twoUnits` are applied, and the sixth store statement from
now fails: in `MigrateTo` towards `a` or `"zero"` it is the `Delete` of the row
of `b`. -/
def deleteOfSecondFailsDB : DB (List String) :=
  ⟨[⟨1, "a", "users"⟩, ⟨2, "b", "users"⟩], 3, [], fun n => n == 5⟩

/-- Both units of `twoUnits` are applied and the pair `(users, b)` has two
rows; the store does not fail. -/
def twoRowsForSecondDB : DB (List String) :=
  ⟨[⟨1, "a", "users"⟩, ⟨2, "b", "users"⟩, ⟨3, "b", "users"⟩], 4, [], noFault⟩

/-- Both units of `twoUnits` are applied and the row of `b` has the primary
key zero; the store does not fail. -/
def zeroKeyForSecondDB : DB (List String) :=
  ⟨[⟨0, "b", "users"⟩, ⟨1, "a", "users"⟩], 2, [], noFault⟩

/-- Both units of `twoUnits` are applied and their rows have the same primary
key; the store does not fail. -/
def sharedKeyTwoDB : DB (List String) :=
  ⟨[⟨1, "a", "users"⟩, ⟨1, "b", "users"⟩], 2, [], noFault⟩

/-- The three units of `threeUnits` are applied and the rows of `a` and `c`
have the same primary key; the store does not fail. -/
def sharedKeyThreeDB : DB (List String) :=
  ⟨[⟨1, "a", "users"⟩, ⟨1, "c", "users"⟩, ⟨2, "b", "users"⟩], 3, [], noFault⟩

/-- The unit of `oneUnit` is applied under two rows; the store does not fail. -/
def twoRowsForOnlyDB : DB (List String) :=
  ⟨[⟨1, "a", "users"⟩, ⟨2, "a", "users"⟩], 3, [], noFault⟩

/-- The unit of `oneUnit` is applied under the primary key zero; the store does
not fail. -/
def zeroKeyForOnlyDB : DB (List String) := ⟨[⟨0, "a", "users"⟩], 1, [], noFault⟩

/-- An empty ledger whose next primary key is zero; the store does not fail. -/
def zeroNextKeyDB : DB (List String) := ⟨[], 0, [], noFault⟩

/-! ## The engine on a store that does not fail -/

theorem tick_noFault {σ : Type} (rows : List Migration) (n : Nat) (s : σ) :
    (DB.mk rows n s noFault).tick = (false, DB.mk rows n s noFault) := rfl

/-- What the transaction primitive does with statements issued through its
handle: a closure that issues `stmt` through `tx` and returns an error leaves
the database as it was (rollback), and one that returns nil makes `stmt` take
effect (commit). -/
theorem Transaction_through_tx {σ α : Type} (rows : List Migration) (n : Nat) (s : σ) (c : α)
    (e : Error) (stmt : DB σ → DB σ) :
    Transaction ⟨rows, n, s, noFault⟩ c (fun tx c db => ((some e, tx.Exec stmt, c), db)) =
        ((some e, c), ⟨rows, n, s, noFault⟩) ∧
      Transaction ⟨rows, n, s, noFault⟩ c (fun tx c db => ((none, tx.Exec stmt, c), db)) =
        ((none, c), stmt ⟨rows, n, s, noFault⟩) := by
  constructor <;> simp [Transaction, Begin, tick_noFault, Tx.Rollback, Tx.Commit, Tx.Exec]

theorem applyMigration_up_healthy {σ : Type} (rows : List Migration) (n : Nat) (s : σ)
    (app : Application σ) (m : GormMigration σ) :
    applyMigration ⟨rows, n, s, noFault⟩ app m true =
      match m.OnUp s with
      | (some e, s1) => (.error (Error.Wrap e "cannot exec transaction"), ⟨rows, n, s1, noFault⟩)
      | (none, s1) =>
        (.ok ⟨app, m, true⟩, ⟨rows ++ [⟨n, m.ID, app.Name⟩], n + 1, s1, noFault⟩) := by
  rcases h : m.OnUp s with ⟨_ | e, s1⟩
  · simp [applyMigration, Transaction, Begin, tick_noFault, GormMigration.Up, h, Create,
      Tx.Commit, GormMigration.GetID]
  · simp [applyMigration, Transaction, Begin, tick_noFault, GormMigration.Up, h, Tx.Rollback]

theorem applyMigration_down_healthy {σ : Type} (rows : List Migration) (n : Nat) (s : σ)
    (app : Application σ) (m : GormMigration σ) :
    applyMigration ⟨rows, n, s, noFault⟩ app m false =
      match m.OnDown s with
      | (some e, s1) => (.error (Error.Wrap e "cannot exec transaction"), ⟨rows, n, s1, noFault⟩)
      | (none, s1) =>
        (.ok ⟨app, m, false⟩, ⟨deleteRecord rows app.Name m.ID, n, s1, noFault⟩) := by
  rcases h : m.OnDown s with ⟨_ | e, s1⟩
  · rcases hf : rows.find? (fun r => r.MigrationID == m.ID && r.AppName == app.Name) with _ | r
    · simp [applyMigration, Transaction, Begin, tick_noFault, GormMigration.Down, h, First,
        GormMigration.GetID, deleteRecord, hf, IsDBError, IsRecordNotFound,
        Error.isRecordNotFound, Delete, Migration.zero, Tx.Commit]
    · by_cases h0 : r.ID = 0
      · simp [applyMigration, Transaction, Begin, tick_noFault, GormMigration.Down, h, First,
          GormMigration.GetID, deleteRecord, hf, IsDBError, IsRecordNotFound, Delete,
          Tx.Commit, h0]
      · simp [applyMigration, Transaction, Begin, tick_noFault, GormMigration.Down, h, First,
          GormMigration.GetID, deleteRecord, hf, IsDBError, IsRecordNotFound, Delete,
          Tx.Commit, h0]
  · simp [applyMigration, Transaction, Begin, tick_noFault, GormMigration.Down, h, Tx.Rollback]

theorem find?_none_of_hasRecord_false {rows : List Migration} {a i : String}
    (h : hasRecord rows a i = false) :
    rows.find? (fun r => r.MigrationID == i && r.AppName == a) = none := by
  simpa [hasRecord] using h

theorem find?_some_of_hasRecord {rows : List Migration} {a i : String}
    (h : hasRecord rows a i = true) :
    ∃ r, rows.find? (fun r => r.MigrationID == i && r.AppName == a) = some r ∧ r ∈ rows ∧
      r.MigrationID = i ∧ r.AppName = a := by
  rcases hf : rows.find? (fun r => r.MigrationID == i && r.AppName == a) with _ | r
  · have : hasRecord rows a i = false := by simpa [hasRecord] using hf
    rw [this] at h; cases h
  · refine ⟨r, hf, List.mem_of_find?_eq_some hf, ?_⟩
    have := List.find?_some hf
    simpa using this

theorem Migrate_loop_cons_healthy {σ : Type} (app : Application σ) (m : GormMigration σ)
    (rest : List (GormMigration σ)) (states : MigrationsStatus σ) (rows : List Migration)
    (n : Nat) (s : σ) :
    Migrate.loop app (m :: rest) states ⟨rows, n, s, noFault⟩ =
      if hasRecord rows app.Name m.ID then Migrate.loop app rest states ⟨rows, n, s, noFault⟩
      else
        match m.OnUp s with
        | (some e, s1) =>
          ((some (Error.Wrap (Error.Wrap e "cannot exec transaction")
              ("cannot apply migration: " ++ m.ID)), states), ⟨rows, n, s1, noFault⟩)
        | (none, s1) =>
          Migrate.loop app rest (states ++ [⟨app, m, true⟩])
            ⟨rows ++ [⟨n, m.ID, app.Name⟩], n + 1, s1, noFault⟩ := by
  cases hr : hasRecord rows app.Name m.ID
  · have hf := find?_none_of_hasRecord_false hr
    rcases h : m.OnUp s with ⟨_ | e, s1⟩ <;>
      simp [Migrate.loop, First, tick_noFault, GormMigration.GetID, hf, IsDBError,
        IsRecordNotFound, Error.isRecordNotFound, applyMigration_up_healthy, h]
  · obtain ⟨r, hf, -⟩ := find?_some_of_hasRecord hr
    simp [Migrate.loop, First, tick_noFault, GormMigration.GetID, hf, IsDBError,
      IsRecordNotFound]

theorem hasRecord_append_single (rows : List Migration) (a i j : String) (n : Nat) :
    hasRecord (rows ++ [⟨n, i, a⟩]) a j = (hasRecord rows a j || decide (j = i)) := by
  by_cases h : j = i
  · subst h; simp [hasRecord]
  · have h2 : ¬ i = j := fun e => h e.symm
    simp [hasRecord, h, h2]

theorem Migrate_loop_ok {σ : Type} (app : Application σ) (rows0 : List Migration) :
    ∀ (ms : List (GormMigration σ)) (seen : List String) (states : MigrationsStatus σ)
      (rows : List Migration) (n : Nat) (s : σ),
      (∀ i, hasRecord rows app.Name i = (hasRecord rows0 app.Name i || decide (i ∈ seen))) →
      (Migrate.loop app ms states ⟨rows, n, s, noFault⟩).1.1 = none →
      Migrate.loop app ms states ⟨rows, n, s, noFault⟩ =
        ((none, states ++ (newlyApplied rows0 app.Name seen ms).map (fun m => ⟨app, m, true⟩)),
          ⟨rows ++ recordsFrom app.Name n (newlyApplied rows0 app.Name seen ms),
            n + (newlyApplied rows0 app.Name seen ms).length,
            runUp s (newlyApplied rows0 app.Name seen ms), noFault⟩) := by
  intro ms
  induction ms with
  | nil => intro seen states rows n s _ _; simp [Migrate.loop, newlyApplied, recordsFrom, runUp]
  | cons m rest ih =>
    intro seen states rows n s hinv hok
    rw [Migrate_loop_cons_healthy] at hok ⊢
    have hm := hinv m.ID
    cases hr : hasRecord rows app.Name m.ID
    · rw [hr] at hm hok
      have hcond : (hasRecord rows0 app.Name m.ID || decide (m.ID ∈ seen)) = false := hm.symm
      rcases hu : m.OnUp s with ⟨_ | e, s1⟩
      · simp only [hu, Bool.false_eq_true, if_false] at hok ⊢
        have hinv1 : ∀ i, hasRecord (rows ++ [⟨n, m.ID, app.Name⟩]) app.Name i =
            (hasRecord rows0 app.Name i || decide (i ∈ m.ID :: seen)) := by
          intro i
          rw [hasRecord_append_single, hinv i]
          by_cases h1 : i = m.ID <;> simp [h1]
        rw [ih (m.ID :: seen) _ _ _ _ hinv1 hok]
        simp [newlyApplied, hcond, recordsFrom, runUp, hu, Nat.add_assoc, Nat.add_comm 1]
      · simp [hu] at hok
    · rw [hr] at hm hok
      have hcond : (hasRecord rows0 app.Name m.ID || decide (m.ID ∈ seen)) = true := hm.symm
      simp only [if_true] at hok ⊢
      rw [ih seen _ _ _ _ hinv hok]
      simp [newlyApplied, hcond]

theorem Migrate_loop_total {σ : Type} (app : Application σ) :
    ∀ (ms : List (GormMigration σ)) (states : MigrationsStatus σ)
      (rows : List Migration) (n : Nat) (s : σ),
      (∀ m ∈ ms, ∀ t, (m.OnUp t).1 = none) →
      (Migrate.loop app ms states ⟨rows, n, s, noFault⟩).1.1 = none := by
  intro ms
  induction ms with
  | nil => intro states rows n s _; simp [Migrate.loop]
  | cons m rest ih =>
    intro states rows n s hup
    rw [Migrate_loop_cons_healthy]
    have hrest : ∀ m ∈ rest, ∀ t, (m.OnUp t).1 = none :=
      fun x hx => hup x (List.mem_cons_of_mem _ hx)
    cases hr : hasRecord rows app.Name m.ID
    · have h1 := hup m (List.mem_cons_self _ _) s
      rcases hu : m.OnUp s with ⟨_ | e, s1⟩
      · simpa [hu] using ih _ _ _ _ hrest
      · rw [hu] at h1; cases h1
    · simpa using ih _ _ _ _ hrest

theorem Migrate_loop_all_applied {σ : Type} (app : Application σ) :
    ∀ (ms : List (GormMigration σ)) (states : MigrationsStatus σ)
      (rows : List Migration) (n : Nat) (s : σ),
      (∀ m ∈ ms, hasRecord rows app.Name m.ID = true) →
      Migrate.loop app ms states ⟨rows, n, s, noFault⟩ =
        ((none, states), ⟨rows, n, s, noFault⟩) := by
  intro ms
  induction ms with
  | nil => intro states rows n s _; simp [Migrate.loop]
  | cons m rest ih =>
    intro states rows n s h
    rw [Migrate_loop_cons_healthy, h m (List.mem_cons_self _ _)]
    simpa using ih _ _ _ _ (fun x hx => h x (List.mem_cons_of_mem _ hx))

theorem Migrate_healthy {σ : Type} (app : Application σ) (rows : List Migration) (n : Nat)
    (s : σ) :
    Migrate ⟨rows, n, s, noFault⟩ app =
      match Migrate.loop app app.Migrations [] ⟨rows, n, s, noFault⟩ with
      | ((some err, states), db) =>
        ((states, some (Error.Wrap err "error in migration transaction")), db.tick.2)
      | ((none, states), db) =>
        match (Tx.mk id).Commit db with
        | (some err, db) =>
          ((states, some (Error.Wrap err "error in migration transaction")), db)
        | (none, db) => ((states, none), db) := by
  rcases h : Migrate.loop app app.Migrations [] ⟨rows, n, s, noFault⟩ with ⟨⟨_ | e, st⟩, db⟩
  · rcases hc : (Tx.mk id).Commit db with ⟨_ | e, db1⟩ <;>
      simp [Migrate, AutoMigrate, tick_noFault, Transaction, Begin, h, hc]
  · simp [Migrate, AutoMigrate, tick_noFault, Transaction, Begin, h, Tx.Rollback]

theorem Migrate_ok {σ : Type} (app : Application σ) (rows : List Migration) (n : Nat) (s : σ)
    (hok : (Migrate ⟨rows, n, s, noFault⟩ app).1.2 = none) :
    Migrate ⟨rows, n, s, noFault⟩ app =
      (((newlyApplied rows app.Name [] app.Migrations).map (fun m => ⟨app, m, true⟩), none),
        ⟨rows ++ recordsFrom app.Name n (newlyApplied rows app.Name [] app.Migrations),
          n + (newlyApplied rows app.Name [] app.Migrations).length,
          runUp s (newlyApplied rows app.Name [] app.Migrations), noFault⟩) := by
  rw [Migrate_healthy] at hok ⊢
  rcases h : Migrate.loop app app.Migrations [] ⟨rows, n, s, noFault⟩ with ⟨⟨_ | e, st⟩, db⟩
  · have h2 := Migrate_loop_ok app rows app.Migrations [] [] rows n s (by simp) (by rw [h])
    have h3 := h.symm.trans h2
    simp only [Prod.mk.injEq, true_and, List.nil_append] at h3
    obtain ⟨rfl, rfl⟩ := h3
    simp [Tx.Commit, tick_noFault]
  · rw [h] at hok; simp at hok


theorem hasRecord_append_recordsFrom {σ : Type} (a : String) :
    ∀ (P : List (GormMigration σ)) (rows : List Migration) (n : Nat) (i : String),
      hasRecord (rows ++ recordsFrom a n P) a i =
        (hasRecord rows a i || decide (i ∈ P.map (fun m => m.ID))) := by
  intro P
  induction P with
  | nil => intro rows n i; simp [recordsFrom]
  | cons m rest ih =>
    intro rows n i
    have h1 : rows ++ recordsFrom a n (m :: rest) =
        (rows ++ [⟨n, m.ID, a⟩]) ++ recordsFrom a (n + 1) rest := by
      simp [recordsFrom]
    rw [h1, ih, hasRecord_append_single]
    by_cases h2 : i = m.ID <;> simp [h2, Bool.or_assoc]

theorem newlyApplied_covers {σ : Type} (rows : List Migration) (a : String) :
    ∀ (ms : List (GormMigration σ)) (seen : List String) (m : GormMigration σ), m ∈ ms →
      hasRecord rows a m.ID = true ∨ m.ID ∈ seen ∨
        m.ID ∈ (newlyApplied rows a seen ms).map (fun m => m.ID) := by
  intro ms
  induction ms with
  | nil => intro seen m hm; cases hm
  | cons x rest ih =>
    intro seen m hm
    rcases List.mem_cons.mp hm with rfl | hm
    · cases hc : (hasRecord rows a m.ID || decide (m.ID ∈ seen))
      · right; right; simp [newlyApplied, hc]
      · rcases Bool.or_eq_true _ _ ▸ hc with h | h
        · exact Or.inl h
        · exact Or.inr (Or.inl (by simpa using h))
    · cases hc : (hasRecord rows a x.ID || decide (x.ID ∈ seen))
      · rcases ih (x.ID :: seen) m hm with h | h | h
        · exact Or.inl h
        · rcases List.mem_cons.mp h with h | h
          · right; right; simp [newlyApplied, hc, h]
          · exact Or.inr (Or.inl h)
        · right; right; simp only [newlyApplied, hc]
          simpa using Or.inr (by simpa using h)
      · rcases ih seen m hm with h | h | h
        · exact Or.inl h
        · exact Or.inr (Or.inl h)
        · right; right; simpa [newlyApplied, hc] using h

theorem newlyApplied_eq_filter {σ : Type} (rows : List Migration) (a : String) :
    ∀ (ms : List (GormMigration σ)) (seen : List String),
      (∀ m ∈ ms, m.ID ∉ seen) → (ms.map (fun m => m.ID)).Nodup →
      newlyApplied rows a seen ms = ms.filter (fun m => !hasRecord rows a m.ID) := by
  intro ms
  induction ms with
  | nil => intro seen _ _; simp [newlyApplied]
  | cons x rest ih =>
    intro seen hs hnd
    have hx : x.ID ∉ seen := hs x (List.mem_cons_self _ _)
    rw [List.map_cons, List.nodup_cons] at hnd
    cases hr : hasRecord rows a x.ID
    · have h1 : ∀ m ∈ rest, m.ID ∉ x.ID :: seen := by
        intro m hm hmem
        rcases List.mem_cons.mp hmem with h | h
        · exact hnd.1 (by rw [← h]; exact List.mem_map_of_mem _ hm)
        · exact hs m (List.mem_cons_of_mem _ hm) h
      simp [newlyApplied, hr, hx, ih (x.ID :: seen) h1 hnd.2]
    · simp [newlyApplied, hr,
        ih seen (fun m hm => hs m (List.mem_cons_of_mem _ hm)) hnd.2]


theorem applied_eq_hasRecord (a : String) :
    ∀ (rows : List Migration) (i : String),
      applied (rows.filter (fun r => r.AppName == a)) i = hasRecord rows a i := by
  intro rows
  induction rows with
  | nil => intro i; simp [applied, hasRecord]
  | cons r rest ih =>
    intro i
    have ih1 := ih i
    simp only [hasRecord] at ih1
    by_cases h1 : r.AppName = a
    · have hb : (r.AppName == a) = true := by simpa using h1
      have e : (r :: rest).filter (fun r => r.AppName == a) =
          r :: rest.filter (fun r => r.AppName == a) := by simp [List.filter_cons, hb]
      rw [e]
      by_cases h2 : i = r.MigrationID
      · simp [applied, hasRecord, h2, h1]
      · have h3 : ¬ r.MigrationID = i := fun e => h2 e.symm
        simp [applied, hasRecord, h2, h3, ih1]
    · have hb : ¬ (r.AppName == a) = true := by simpa using h1
      have e : (r :: rest).filter (fun r => r.AppName == a) =
          rest.filter (fun r => r.AppName == a) := by simp [List.filter_cons, h1]
      rw [e, ih1]
      simp [hasRecord, h1]

theorem checkExists_eq {σ : Type} (i : String) :
    ∀ ms : List (GormMigration σ),
      MigrateTo.checkExists i ms = decide (i ∈ ms.map (fun m => m.ID)) := by
  intro ms
  induction ms with
  | nil => simp [MigrateTo.checkExists]
  | cons m rest ih =>
    by_cases h : i = m.ID
    · simp [MigrateTo.checkExists, GormMigration.GetID, h]
    · simp [MigrateTo.checkExists, GormMigration.GetID, h, ih]

theorem MigrateTo_healthy {σ : Type} (app : Application σ) (i : String) (rows : List Migration)
    (n : Nat) (s : σ) (hknown : i = "zero" ∨ i ∈ app.Migrations.map (fun m => m.ID)) :
    MigrateTo ⟨rows, n, s, noFault⟩ app i =
      match (if i = "zero" ∨ hasRecord rows app.Name i = true then
              MigrateTo.reverseLoop app i (rows.filter (fun r => r.AppName == app.Name))
                app.Migrations.reverse [] ⟨rows, n, s, noFault⟩
            else
              MigrateTo.forwardLoop app i (rows.filter (fun r => r.AppName == app.Name))
                app.Migrations [] ⟨rows, n, s, noFault⟩) with
      | ((some err, states), db) =>
        ((states, some (Error.Wrap err "error in migration transaction")), db.tick.2)
      | ((none, states), db) =>
        match (Tx.mk id).Commit db with
        | (some err, db) =>
          ((states, some (Error.Wrap err "error in migration transaction")), db)
        | (none, db) => ((states, none), db) := by
  have hchk : (!MigrateTo.checkExists i app.Migrations && i != "zero") = false := by
    rw [checkExists_eq]
    rcases hknown with h | h
    · simp [h]
    · simp [h]
  by_cases hc : i = "zero" ∨ hasRecord rows app.Name i = true
  · rw [if_pos hc]
    have hc2 : (i == "zero" || applied (rows.filter (fun r => r.AppName == app.Name)) i) = true := by
      rw [applied_eq_hasRecord]; simpa using hc
    rcases h : MigrateTo.reverseLoop app i (rows.filter (fun r => r.AppName == app.Name))
        app.Migrations.reverse [] ⟨rows, n, s, noFault⟩ with ⟨⟨_ | e, st⟩, db⟩
    · rcases hcm : (Tx.mk id).Commit db with ⟨_ | e, db1⟩ <;>
        simp [MigrateTo, AutoMigrate, tick_noFault, Find, IsDBError, hchk, Transaction, Begin,
          hc2, h, hcm]
    · simp [MigrateTo, AutoMigrate, tick_noFault, Find, IsDBError, hchk, Transaction, Begin,
        hc2, h, Tx.Rollback]
  · rw [if_neg hc]
    have hc2 : (i == "zero" || applied (rows.filter (fun r => r.AppName == app.Name)) i) = false := by
      rw [applied_eq_hasRecord]
      rcases hb : (i == "zero" || hasRecord rows app.Name i) with _ | _
      · rfl
      · exact absurd (by simpa using hb) hc
    rcases h : MigrateTo.forwardLoop app i (rows.filter (fun r => r.AppName == app.Name))
        app.Migrations [] ⟨rows, n, s, noFault⟩ with ⟨⟨_ | e, st⟩, db⟩
    · rcases hcm : (Tx.mk id).Commit db with ⟨_ | e, db1⟩ <;>
        simp [MigrateTo, AutoMigrate, tick_noFault, Find, IsDBError, hchk, Transaction, Begin,
          hc2, h, hcm]
    · simp [MigrateTo, AutoMigrate, tick_noFault, Find, IsDBError, hchk, Transaction, Begin,
        hc2, h, Tx.Rollback]

theorem forwardLoop_ok {σ : Type} (app : Application σ) (i : String) (snap : List Migration) :
    ∀ (ms : List (GormMigration σ)) (states : MigrationsStatus σ)
      (rows : List Migration) (n : Nat) (s : σ),
      (MigrateTo.forwardLoop app i snap ms states ⟨rows, n, s, noFault⟩).1.1 = none →
      MigrateTo.forwardLoop app i snap ms states ⟨rows, n, s, noFault⟩ =
        ((none, states ++
            ((upToTarget i ms).filter (fun m => !applied snap m.ID)).map
              (fun m => ⟨app, m, true⟩)),
          ⟨rows ++ recordsFrom app.Name n
              ((upToTarget i ms).filter (fun m => !applied snap m.ID)),
            n + ((upToTarget i ms).filter (fun m => !applied snap m.ID)).length,
            runUp s ((upToTarget i ms).filter (fun m => !applied snap m.ID)), noFault⟩) := by
  intro ms
  induction ms with
  | nil => intro states rows n s _; simp [MigrateTo.forwardLoop, upToTarget, recordsFrom, runUp]
  | cons m rest ih =>
    intro states rows n s hok
    by_cases ht : m.ID = i
    · subst ht
      cases ha : applied snap m.ID
      · rcases hu : m.OnUp s with ⟨_ | e, s1⟩
        · simp [MigrateTo.forwardLoop, GormMigration.GetID, ha, applyMigration_up_healthy, hu,
            upToTarget, recordsFrom, runUp]
        · simp [MigrateTo.forwardLoop, GormMigration.GetID, ha, applyMigration_up_healthy, hu]
            at hok
      · simp [MigrateTo.forwardLoop, GormMigration.GetID, ha, upToTarget, recordsFrom,
          runUp]
    · cases ha : applied snap m.ID
      · rcases hu : m.OnUp s with ⟨_ | e, s1⟩
        · have hok1 : (MigrateTo.forwardLoop app i snap rest (states ++ [⟨app, m, true⟩])
              ⟨rows ++ [⟨n, m.ID, app.Name⟩], n + 1, s1, noFault⟩).1.1 = none := by
            simpa [MigrateTo.forwardLoop, GormMigration.GetID, ha, applyMigration_up_healthy, hu,
              ht] using hok
          have := ih _ _ _ _ hok1
          simp [MigrateTo.forwardLoop, GormMigration.GetID, ha, applyMigration_up_healthy, hu,
            ht, upToTarget, recordsFrom, runUp, this, Nat.add_assoc, Nat.add_comm 1]
        · simp [MigrateTo.forwardLoop, GormMigration.GetID, ha, applyMigration_up_healthy, hu]
            at hok
      · have hok1 : (MigrateTo.forwardLoop app i snap rest states
            ⟨rows, n, s, noFault⟩).1.1 = none := by
          simpa [MigrateTo.forwardLoop, GormMigration.GetID, ha, ht] using hok
        have := ih _ _ _ _ hok1
        simp [MigrateTo.forwardLoop, GormMigration.GetID, ha, ht, upToTarget, this]

theorem reverseLoop_ok {σ : Type} (app : Application σ) (i : String) (snap : List Migration) :
    ∀ (ms : List (GormMigration σ)) (states : MigrationsStatus σ)
      (rows : List Migration) (n : Nat) (s : σ),
      (MigrateTo.reverseLoop app i snap ms states ⟨rows, n, s, noFault⟩).1.1 = none →
      MigrateTo.reverseLoop app i snap ms states ⟨rows, n, s, noFault⟩ =
        ((none, states ++
            ((ms.takeWhile (fun m => m.ID != i)).filter (fun m => applied snap m.ID)).map
              (fun m => ⟨app, m, false⟩)),
          ⟨deleteRecords app.Name rows
              ((ms.takeWhile (fun m => m.ID != i)).filter (fun m => applied snap m.ID)),
            n,
            runDown s ((ms.takeWhile (fun m => m.ID != i)).filter (fun m => applied snap m.ID)),
            noFault⟩) := by
  intro ms
  induction ms with
  | nil => intro states rows n s _; simp [MigrateTo.reverseLoop, deleteRecords, runDown]
  | cons m rest ih =>
    intro states rows n s hok
    by_cases ht : m.ID = i
    · subst ht
      simp [MigrateTo.reverseLoop, GormMigration.GetID, deleteRecords, runDown]
    · have htw : (m :: rest).takeWhile (fun m => m.ID != i) =
          m :: rest.takeWhile (fun m => m.ID != i) := by
        simp [List.takeWhile_cons, ht]
      rw [htw]
      cases ha : applied snap m.ID
      · have hok1 : (MigrateTo.reverseLoop app i snap rest states
            ⟨rows, n, s, noFault⟩).1.1 = none := by
          simpa [MigrateTo.reverseLoop, GormMigration.GetID, ha, ht] using hok
        have := ih _ _ _ _ hok1
        simp [MigrateTo.reverseLoop, GormMigration.GetID, ha, ht, this]
      · rcases hu : m.OnDown s with ⟨_ | e, s1⟩
        · have hok1 : (MigrateTo.reverseLoop app i snap rest (states ++ [⟨app, m, false⟩])
              ⟨deleteRecord rows app.Name m.ID, n, s1, noFault⟩).1.1 = none := by
            simpa [MigrateTo.reverseLoop, GormMigration.GetID, ha, applyMigration_down_healthy,
              hu, ht] using hok
          have := ih _ _ _ _ hok1
          simp [MigrateTo.reverseLoop, GormMigration.GetID, ha, applyMigration_down_healthy, hu,
            ht, this, deleteRecords, runDown]
        · simp [MigrateTo.reverseLoop, GormMigration.GetID, ha, applyMigration_down_healthy, hu,
            ht] at hok

theorem WellFormed_filter {rows : List Migration} {n : Nat} (p : Migration → Bool)
    (h : WellFormed rows n) : WellFormed (rows.filter p) n := by
  obtain ⟨h0, h1, h2, h3⟩ := h
  refine ⟨h0, fun r hr => h1 r (List.mem_of_mem_filter hr), ?_, ?_⟩
  · exact h2.sublist ((List.filter_sublist rows).map _)
  · exact h3.sublist ((List.filter_sublist rows).map _)

theorem eq_of_same_key {rows : List Migration} (h : (rows.map (fun r => r.ID)).Nodup)
    {x y : Migration} (hx : x ∈ rows) (hy : y ∈ rows) (e : x.ID = y.ID) : x = y :=
  List.inj_on_of_nodup_map h hx hy e

theorem eq_of_same_pair {rows : List Migration}
    (h : (rows.map (fun r => (r.AppName, r.MigrationID))).Nodup)
    {x y : Migration} (hx : x ∈ rows) (hy : y ∈ rows) (e1 : x.AppName = y.AppName)
    (e2 : x.MigrationID = y.MigrationID) : x = y :=
  List.inj_on_of_nodup_map h hx hy (by simp [e1, e2])

theorem deleteRecord_eq_filter {rows : List Migration} {n : Nat} (h : WellFormed rows n)
    (a i : String) :
    deleteRecord rows a i = rows.filter (fun r => !(r.MigrationID == i && r.AppName == a)) := by
  obtain ⟨_, h1, h2, h3⟩ := h
  unfold deleteRecord
  rcases hf : rows.find? (fun r => r.MigrationID == i && r.AppName == a) with _ | r
  · simp only [hf]
    symm
    rw [List.filter_eq_self]
    intro x hx
    have := List.find?_eq_none.mp hf x hx
    rcases hb : (x.MigrationID == i && x.AppName == a) with _ | _
    · rfl
    · exact absurd hb this
  · have hr : r ∈ rows := List.mem_of_find?_eq_some hf
    have hp := List.find?_some hf
    simp only [Bool.and_eq_true, beq_iff_eq] at hp
    have h0 : r.ID ≠ 0 := Nat.pos_iff_ne_zero.mp (h1 r hr).1
    simp only [hf]
    rw [if_neg h0]
    apply List.filter_congr
    intro x hx
    by_cases e : x.ID = r.ID
    · have : x = r := eq_of_same_key h2 hx hr e
      subst this
      simp [hp.1, hp.2]
    · have hne : ¬ (x.MigrationID = i ∧ x.AppName = a) := by
        rintro ⟨e1, e2⟩
        exact e (congrArg _ (eq_of_same_pair h3 hx hr (e2.trans hp.2.symm) (e1.trans hp.1.symm)))
      have : (x.MigrationID == i && x.AppName == a) = false := by
        rcases hb : (x.MigrationID == i && x.AppName == a) with _ | _
        · rfl
        · exact absurd (by simpa using hb) hne
      simp [this, e]

theorem deleteRecords_eq_filter {σ : Type} (a : String) :
    ∀ (R : List (GormMigration σ)) (rows : List Migration) (n : Nat), WellFormed rows n →
      deleteRecords a rows R =
        rows.filter (fun r => !(r.AppName == a && decide (r.MigrationID ∈ R.map (fun m => m.ID)))) := by
  intro R
  induction R with
  | nil => intro rows n _; simp [deleteRecords]
  | cons m rest ih =>
    intro rows n h
    simp only [deleteRecords]
    rw [deleteRecord_eq_filter h, ih _ n (WellFormed_filter _ h), List.filter_filter]
    apply List.filter_congr
    intro x _
    by_cases e1 : x.AppName = a <;> by_cases e2 : x.MigrationID = m.ID <;> simp [e1, e2]

theorem hasRecord_filter_out (rows : List Migration) (a : String) (ids : List String)
    (i : String) :
    hasRecord (rows.filter (fun r => !(r.AppName == a && decide (r.MigrationID ∈ ids)))) a i =
      (hasRecord rows a i && !decide (i ∈ ids)) := by
  rw [Bool.eq_iff_iff]
  simp only [hasRecord, List.any_eq_true, List.mem_filter, Bool.and_eq_true, beq_iff_eq,
    Bool.not_eq_true', decide_eq_true_eq, decide_eq_false_iff_not, Bool.and_eq_false_imp]
  constructor
  · rintro ⟨x, ⟨hx, hp⟩, e1, e2⟩
    exact ⟨⟨x, hx, e1, e2⟩, fun hi => hp e2 (e1 ▸ hi)⟩
  · rintro ⟨⟨x, hx, e1, e2⟩, hi⟩
    exact ⟨x, ⟨hx, fun _ hm => hi (e1 ▸ hm)⟩, e1, e2⟩

theorem applied_snapshot_eq {σ : Type} (rows : List Migration) (a : String) :
    (fun m : GormMigration σ => applied (rows.filter (fun r => r.AppName == a)) m.ID) =
      (fun m => hasRecord rows a m.ID) := by
  funext m; exact applied_eq_hasRecord a rows m.ID

theorem applied_snapshot_not_eq {σ : Type} (rows : List Migration) (a : String) :
    (fun m : GormMigration σ => !applied (rows.filter (fun r => r.AppName == a)) m.ID) =
      (fun m => !hasRecord rows a m.ID) := by
  funext m; rw [applied_eq_hasRecord a rows m.ID]

theorem MigrateTo_forward_ok {σ : Type} (app : Application σ) (i : String)
    (rows : List Migration) (n : Nat) (s : σ)
    (hknown : i = "zero" ∨ i ∈ app.Migrations.map (fun m => m.ID))
    (hdir : ¬ (i = "zero" ∨ hasRecord rows app.Name i = true))
    (hok : (MigrateTo ⟨rows, n, s, noFault⟩ app i).1.2 = none) :
    MigrateTo ⟨rows, n, s, noFault⟩ app i =
      ((((upToTarget i app.Migrations).filter (fun m => !hasRecord rows app.Name m.ID)).map
          (fun m => ⟨app, m, true⟩), none),
        ⟨rows ++ recordsFrom app.Name n
            ((upToTarget i app.Migrations).filter (fun m => !hasRecord rows app.Name m.ID)),
          n + ((upToTarget i app.Migrations).filter
            (fun m => !hasRecord rows app.Name m.ID)).length,
          runUp s ((upToTarget i app.Migrations).filter
            (fun m => !hasRecord rows app.Name m.ID)), noFault⟩) := by
  rw [MigrateTo_healthy app i rows n s hknown, if_neg hdir] at hok ⊢
  rcases h : MigrateTo.forwardLoop app i (rows.filter (fun r => r.AppName == app.Name))
      app.Migrations [] ⟨rows, n, s, noFault⟩ with ⟨⟨_ | e, st⟩, db⟩
  · have h2 := forwardLoop_ok app i _ app.Migrations [] rows n s (by rw [h])
    have h3 := h.symm.trans h2
    simp only [Prod.mk.injEq, true_and, List.nil_append, applied_snapshot_not_eq] at h3
    obtain ⟨rfl, rfl⟩ := h3
    simp [Tx.Commit, tick_noFault]
  · rw [h] at hok; simp at hok

theorem MigrateTo_reverse_ok {σ : Type} (app : Application σ) (i : String)
    (rows : List Migration) (n : Nat) (s : σ)
    (hknown : i = "zero" ∨ i ∈ app.Migrations.map (fun m => m.ID))
    (hdir : i = "zero" ∨ hasRecord rows app.Name i = true)
    (hok : (MigrateTo ⟨rows, n, s, noFault⟩ app i).1.2 = none) :
    MigrateTo ⟨rows, n, s, noFault⟩ app i =
      ((((app.Migrations.reverse.takeWhile (fun m => m.ID != i)).filter
          (fun m => hasRecord rows app.Name m.ID)).map (fun m => ⟨app, m, false⟩), none),
        ⟨deleteRecords app.Name rows
            ((app.Migrations.reverse.takeWhile (fun m => m.ID != i)).filter
              (fun m => hasRecord rows app.Name m.ID)),
          n,
          runDown s ((app.Migrations.reverse.takeWhile (fun m => m.ID != i)).filter
            (fun m => hasRecord rows app.Name m.ID)), noFault⟩) := by
  rw [MigrateTo_healthy app i rows n s hknown, if_pos hdir] at hok ⊢
  rcases h : MigrateTo.reverseLoop app i (rows.filter (fun r => r.AppName == app.Name))
      app.Migrations.reverse [] ⟨rows, n, s, noFault⟩ with ⟨⟨_ | e, st⟩, db⟩
  · have h2 := reverseLoop_ok app i _ app.Migrations.reverse [] rows n s (by rw [h])
    have h3 := h.symm.trans h2
    simp only [Prod.mk.injEq, true_and, List.nil_append, applied_snapshot_eq] at h3
    obtain ⟨rfl, rfl⟩ := h3
    simp [Tx.Commit, tick_noFault]
  · rw [h] at hok; simp at hok

theorem takeWhile_append_stop {α : Type} (p : α → Bool) (t : α) (r : List α) :
    ∀ l : List α, (∀ x ∈ l, p x = true) → p t = false → (l ++ t :: r).takeWhile p = l := by
  intro l
  induction l with
  | nil => intro _ ht; simp [List.takeWhile_cons, ht]
  | cons x rest ih =>
    intro hl ht
    have hx := hl x (List.mem_cons_self _ _)
    simp [List.takeWhile_cons, hx, ih (fun y hy => hl y (List.mem_cons_of_mem _ hy)) ht]

theorem takeWhile_all {α : Type} (p : α → Bool) :
    ∀ l : List α, (∀ x ∈ l, p x = true) → l.takeWhile p = l := by
  intro l
  induction l with
  | nil => intro _; rfl
  | cons x rest ih =>
    intro hl
    have hx := hl x (List.mem_cons_self _ _)
    simp [List.takeWhile_cons, hx, ih (fun y hy => hl y (List.mem_cons_of_mem _ hy))]

theorem upToTarget_split {σ : Type} (i : String) (t : GormMigration σ)
    (post : List (GormMigration σ)) (ht : t.ID = i) :
    ∀ pre : List (GormMigration σ), (∀ m ∈ pre, m.ID ≠ i) →
      upToTarget i (pre ++ t :: post) = pre ++ [t] := by
  intro pre
  induction pre with
  | nil => intro _; simp [upToTarget, ht]
  | cons x rest ih =>
    intro h
    have hx := h x (List.mem_cons_self _ _)
    simp [upToTarget, hx, ih (fun y hy => h y (List.mem_cons_of_mem _ hy))]

theorem nodup_split {σ : Type} {pre post : List (GormMigration σ)} {t : GormMigration σ}
    (h : ((pre ++ t :: post).map (fun m => m.ID)).Nodup) :
    (∀ m ∈ pre, m.ID ≠ t.ID) ∧ (∀ m ∈ post, m.ID ≠ t.ID) ∧
      (∀ m ∈ post, m.ID ∉ (pre ++ [t]).map (fun m => m.ID)) := by
  rw [List.map_append, List.map_cons, List.nodup_append] at h
  obtain ⟨_, h2, h3⟩ := h
  rw [List.nodup_cons] at h2
  refine ⟨?_, ?_, ?_⟩
  · intro m hm e
    exact h3 (List.mem_map_of_mem _ hm) (by rw [e]; exact List.mem_cons_self _ _)
  · intro m hm e
    exact h2.1 (by rw [← e]; exact List.mem_map_of_mem _ hm)
  · intro m hm hmem
    rw [List.map_append, List.mem_append] at hmem
    rcases hmem with hmem | hmem
    · exact h3 hmem (List.mem_cons_of_mem _ (List.mem_map_of_mem _ hm))
    · simp only [List.map_cons, List.map_nil, List.mem_singleton] at hmem
      exact h2.1 (by rw [← hmem]; exact List.mem_map_of_mem _ hm)

theorem reverse_walk_split {σ : Type} (pre post : List (GormMigration σ))
    (t : GormMigration σ) (hpost : ∀ m ∈ post, m.ID ≠ t.ID) :
    (pre ++ t :: post).reverse.takeWhile (fun m => m.ID != t.ID) = post.reverse := by
  have e : (pre ++ t :: post).reverse = post.reverse ++ t :: pre.reverse := by simp
  rw [e]
  apply takeWhile_append_stop
  · intro x hx
    have := hpost x (List.mem_reverse.mp hx)
    simpa using this
  · simp

theorem hasRecord_iff (rows : List Migration) (a i : String) :
    hasRecord rows a i = true ↔ ∃ r ∈ rows, r.MigrationID = i ∧ r.AppName = a := by
  simp [hasRecord]

theorem recordsFrom_keys {σ : Type} (a : String) :
    ∀ (P : List (GormMigration σ)) (n : Nat),
      (recordsFrom a n P).map (fun r => r.ID) = List.range' n P.length := by
  intro P
  induction P with
  | nil => intro n; simp [recordsFrom]
  | cons m rest ih => intro n; simp [recordsFrom, ih, List.range'_succ]

theorem recordsFrom_pairs {σ : Type} (a : String) :
    ∀ (P : List (GormMigration σ)) (n : Nat),
      (recordsFrom a n P).map (fun r => (r.AppName, r.MigrationID)) =
        P.map (fun m => (a, m.ID)) := by
  intro P
  induction P with
  | nil => intro n; simp [recordsFrom]
  | cons m rest ih => intro n; simp [recordsFrom, ih]

theorem WellFormed_append {σ : Type} {rows : List Migration} {n : Nat} (a : String)
    (P : List (GormMigration σ)) (h : WellFormed rows n)
    (hnd : (P.map (fun m => m.ID)).Nodup)
    (hnew : ∀ m ∈ P, hasRecord rows a m.ID = false) :
    WellFormed (rows ++ recordsFrom a n P) (n + P.length) := by
  obtain ⟨h0, h1, h2, h3⟩ := h
  have hkeys : ∀ r ∈ recordsFrom a n P, n ≤ r.ID ∧ r.ID < n + P.length := by
    intro r hr
    have : r.ID ∈ (recordsFrom a n P).map (fun r => r.ID) := List.mem_map_of_mem _ hr
    rw [recordsFrom_keys] at this
    simpa [List.mem_range'_1] using this
  refine ⟨by omega, ?_, ?_, ?_⟩
  · intro r hr
    rcases List.mem_append.mp hr with hr | hr
    · have := h1 r hr; omega
    · have := hkeys r hr; omega
  · rw [List.map_append, List.nodup_append]
    refine ⟨h2, ?_, ?_⟩
    · rw [recordsFrom_keys]; exact List.nodup_range' _ _
    · intro x hx hy
      obtain ⟨r, hr, rfl⟩ := List.mem_map.mp hx
      obtain ⟨r2, hr2, e⟩ := List.mem_map.mp hy
      have := h1 r hr
      have := hkeys r2 hr2
      omega
  · rw [List.map_append, List.nodup_append]
    refine ⟨h3, ?_, ?_⟩
    · rw [recordsFrom_pairs]
      have : P.map (fun m => (a, m.ID)) = (P.map (fun m => m.ID)).map (fun i => (a, i)) := by
        simp
      rw [this]
      exact hnd.map (fun x y e => by simpa using e)
    · intro x hx hy
      rw [recordsFrom_pairs] at hy
      obtain ⟨r, hr, rfl⟩ := List.mem_map.mp hx
      obtain ⟨m, hm, e⟩ := List.mem_map.mp hy
      have hrec : hasRecord rows a m.ID = true := by
        rw [hasRecord_iff]
        simp only [Prod.mk.injEq] at e
        exact ⟨r, hr, e.2.symm, e.1.symm⟩
      rw [hnew m hm] at hrec
      cases hrec

theorem newlyApplied_props {σ : Type} (rows : List Migration) (a : String) :
    ∀ (ms : List (GormMigration σ)) (seen : List String),
      ((newlyApplied rows a seen ms).map (fun m => m.ID)).Nodup ∧
        ∀ m ∈ newlyApplied rows a seen ms,
          m ∈ ms ∧ hasRecord rows a m.ID = false ∧ m.ID ∉ seen := by
  intro ms
  induction ms with
  | nil => intro seen; simp [newlyApplied]
  | cons x rest ih =>
    intro seen
    cases hc : (hasRecord rows a x.ID || decide (x.ID ∈ seen))
    · obtain ⟨h1, h2⟩ := ih (x.ID :: seen)
      have hx1 : hasRecord rows a x.ID = false := by
        rcases hr : hasRecord rows a x.ID with _ | _
        · rfl
        · rw [hr] at hc; simp at hc
      have hx2 : x.ID ∉ seen := by
        intro hmem
        rw [decide_eq_true hmem] at hc; simp at hc
      simp only [newlyApplied, hc, Bool.false_eq_true, if_false, List.map_cons,
        List.nodup_cons, List.mem_cons]
      refine ⟨⟨?_, h1⟩, ?_⟩
      · intro hmem
        obtain ⟨m, hm, e⟩ := List.mem_map.mp hmem
        exact (h2 m hm).2.2 (by rw [e]; exact List.mem_cons_self _ _)
      · intro m hm
        rcases hm with rfl | hm
        · exact ⟨Or.inl rfl, hx1, hx2⟩
        · obtain ⟨h3, h4, h5⟩ := h2 m hm
          exact ⟨Or.inr h3, h4, fun hmem => h5 (List.mem_cons_of_mem _ hmem)⟩
    · obtain ⟨h1, h2⟩ := ih seen
      simp only [newlyApplied, hc, if_true]
      refine ⟨h1, fun m hm => ?_⟩
      obtain ⟨h3, h4, h5⟩ := h2 m hm
      exact ⟨List.mem_cons_of_mem _ h3, h4, h5⟩

theorem mem_recordsFrom {σ : Type} {a : String} {P : List (GormMigration σ)} {n : Nat}
    {r : Migration} (hr : r ∈ recordsFrom a n P) :
    r.AppName = a ∧ ∃ m ∈ P, r.MigrationID = m.ID := by
  have : (r.AppName, r.MigrationID) ∈
      (recordsFrom a n P).map (fun r => (r.AppName, r.MigrationID)) :=
    List.mem_map_of_mem _ hr
  rw [recordsFrom_pairs] at this
  obtain ⟨m, hm, e⟩ := List.mem_map.mp this
  simp only [Prod.mk.injEq] at e
  exact ⟨e.1.symm, m, hm, e.2.symm⟩

theorem MigrateTo_zero_ok {σ : Type} (app : Application σ) (rows : List Migration) (n : Nat)
    (s : σ) (N : Nat) (hledger : WellFormed rows N)
    (hzero : ∀ m ∈ app.Migrations, m.ID ≠ "zero")
    (hok : (MigrateTo ⟨rows, n, s, noFault⟩ app "zero").1.2 = none) :
    MigrateTo ⟨rows, n, s, noFault⟩ app "zero" =
      (((appliedUnits rows app.Name app.Migrations).reverse.map (fun m => ⟨app, m, false⟩),
          none),
        ⟨withoutRecords rows app.Name (appliedUnits rows app.Name app.Migrations), n,
          runDown s (appliedUnits rows app.Name app.Migrations).reverse, noFault⟩) := by
  have hrows : deleteRecords app.Name rows (appliedUnits rows app.Name app.Migrations).reverse =
      withoutRecords rows app.Name (appliedUnits rows app.Name app.Migrations) := by
    rw [deleteRecords_eq_filter app.Name _ rows N hledger]
    unfold withoutRecords
    apply List.filter_congr
    intro x _
    simp
  have hwalk : app.Migrations.reverse.takeWhile (fun m => m.ID != "zero") =
      app.Migrations.reverse := by
    apply takeWhile_all
    intro x hx
    have := hzero x (List.mem_reverse.mp hx)
    simpa using this
  rw [MigrateTo_reverse_ok app "zero" rows n s (Or.inl rfl) (Or.inl rfl) hok, hwalk,
    List.filter_reverse, ← hrows]
  rfl

theorem hasRecord_withoutRecords_applied {σ : Type} (rows : List Migration) (a : String)
    (ms : List (GormMigration σ)) (m : GormMigration σ) (hm : m ∈ ms) :
    hasRecord (withoutRecords rows a (appliedUnits rows a ms)) a m.ID = false := by
  unfold withoutRecords
  rw [hasRecord_filter_out]
  cases hr : hasRecord rows a m.ID
  · simp
  · have hmem : m.ID ∈ (appliedUnits rows a ms).map (fun m => m.ID) :=
      List.mem_map_of_mem _ (List.mem_filter.mpr ⟨hm, hr⟩)
    rw [decide_eq_true hmem]; simp

theorem mem_take_mono {α : Type} {l : List α} {k j : Nat} {x : α} (h : k ≤ j)
    (hx : x ∈ l.take k) : x ∈ l.take j := by
  have e : l.take k = (l.take j).take k := by rw [List.take_take, Nat.min_eq_left h]
  rw [e] at hx
  exact List.mem_of_mem_take hx

theorem le_length_of_not_mem_take {α : Type} (L R : List α) (c : α) (k : Nat)
    (h : c ∉ (L ++ c :: R).take k) : k ≤ L.length := by
  by_contra hk
  apply h
  have hk2 : L.length + 1 ≤ k := by omega
  apply mem_take_mono hk2
  rw [List.take_append_eq_append_take]
  simp

theorem take_split {α : Type} (L R : List α) (c : α) :
    (L ++ c :: R).take (L.length + 1) = L ++ [c] := by
  rw [List.take_append_eq_append_take]
  simp

theorem length_lt_of_mem_take {α : Type} (L R : List α) (c : α) (k : Nat)
    (hnd : (L ++ c :: R).Nodup) (h : c ∈ (L ++ c :: R).take k) : L.length + 1 ≤ k := by
  by_contra hk
  have hk2 : k ≤ L.length := by omega
  rw [List.take_append_of_le_length hk2] at h
  have hc : c ∈ L := List.mem_of_mem_take h
  rw [List.nodup_append] at hnd
  exact hnd.2.2 hc (List.mem_cons_self _ _)

theorem forward_run {σ : Type} (a : String) (rows : List Migration) (n k : Nat)
    (pre post : List (GormMigration σ)) (t : GormMigration σ)
    (hrun : AppliedRun rows (Application.mk a (pre ++ t :: post)) k)
    (hpending : hasRecord rows a t.ID = false) :
    AppliedRun
      (rows ++ recordsFrom a n ((pre ++ [t]).filter (fun m => !hasRecord rows a m.ID)))
      (Application.mk a (pre ++ t :: post)) (pre.length + 1) := by
  unfold AppliedRun at hrun ⊢
  simp only [List.map_append, List.map_cons] at hrun ⊢
  have htake : (pre.map (fun m => m.ID) ++ t.ID :: post.map (fun m => m.ID)).take
      (pre.length + 1) = pre.map (fun m => m.ID) ++ [t.ID] := by
    have := take_split (pre.map (fun m => m.ID)) (post.map (fun m => m.ID)) t.ID
    simpa using this
  have hk : k ≤ (pre.map (fun m => m.ID)).length := by
    apply le_length_of_not_mem_take _ (post.map (fun m => m.ID)) t.ID
    intro hm
    have := (hrun t.ID (by simp)).mpr hm
    rw [hpending] at this
    cases this
  rw [List.length_map] at hk
  intro x hx
  rw [hasRecord_append_recordsFrom, htake]
  constructor
  · intro h
    simp only [Bool.or_eq_true, decide_eq_true_eq] at h
    rcases h with h | h
    · have h1 := (hrun x hx).mp h
      have h2 := mem_take_mono (Nat.le_succ_of_le hk) h1
      rw [htake] at h2
      exact h2
    · obtain ⟨m, hm, e⟩ := List.mem_map.mp h
      have hm2 := List.mem_of_mem_filter hm
      rw [← e]
      have := List.mem_map_of_mem (fun m => m.ID) hm2
      simpa using this
  · intro h
    have h2 : x ∈ (pre ++ [t]).map (fun m => m.ID) := by simpa using h
    obtain ⟨m, hm, e⟩ := List.mem_map.mp h2
    cases hr : hasRecord rows a x
    · have hmem : x ∈ ((pre ++ [t]).filter (fun m => !hasRecord rows a m.ID)).map
          (fun m => m.ID) := by
        rw [← e]
        apply List.mem_map_of_mem
        rw [List.mem_filter]
        exact ⟨hm, by rw [e, hr]; rfl⟩
      rw [decide_eq_true hmem]; rfl
    · rfl

theorem reverse_run {σ : Type} (a : String) (rows : List Migration) (k : Nat)
    (pre post : List (GormMigration σ)) (t : GormMigration σ)
    (hnodup : ((pre ++ t :: post).map (fun m => m.ID)).Nodup)
    (hrun : AppliedRun rows (Application.mk a (pre ++ t :: post)) k) :
    AppliedRun (withoutRecords rows a (appliedUnits rows a post))
      (Application.mk a (pre ++ t :: post))
      (if hasRecord rows a t.ID = true then pre.length + 1 else k) := by
  obtain ⟨-, -, hpost⟩ := nodup_split hnodup
  unfold AppliedRun at hrun ⊢
  simp only [List.map_append, List.map_cons] at hrun hnodup ⊢
  have htake : (pre.map (fun m => m.ID) ++ t.ID :: post.map (fun m => m.ID)).take
      (pre.length + 1) = pre.map (fun m => m.ID) ++ [t.ID] := by
    have := take_split (pre.map (fun m => m.ID)) (post.map (fun m => m.ID)) t.ID
    simpa using this
  have hout : ∀ x, x ∈ pre.map (fun m => m.ID) ++ [t.ID] →
      x ∉ (appliedUnits rows a post).map (fun m => m.ID) := by
    intro x hx hmem
    obtain ⟨m, hm, e⟩ := List.mem_map.mp hmem
    exact hpost m (List.mem_of_mem_filter hm) (by rw [e]; simpa using hx)
  have hin : ∀ x, x ∈ post.map (fun m => m.ID) → hasRecord rows a x = true →
      x ∈ (appliedUnits rows a post).map (fun m => m.ID) := by
    intro x hx hr
    obtain ⟨m, hm, e⟩ := List.mem_map.mp hx
    rw [← e]
    exact List.mem_map_of_mem _ (List.mem_filter.mpr ⟨hm, by rw [e]; exact hr⟩)
  intro x hx
  unfold withoutRecords
  rw [hasRecord_filter_out]
  simp only [Bool.and_eq_true, Bool.not_eq_true', decide_eq_false_iff_not]
  cases ht : hasRecord rows a t.ID
  · simp only [Bool.false_eq_true, if_false]
    have hk : k ≤ (pre.map (fun m => m.ID)).length := by
      apply le_length_of_not_mem_take _ (post.map (fun m => m.ID)) t.ID
      intro hm
      have := (hrun t.ID (by simp)).mpr hm
      rw [ht] at this
      cases this
    constructor
    · intro h; exact (hrun x hx).mp h.1
    · intro h
      refine ⟨(hrun x hx).mpr h, ?_⟩
      rw [List.take_append_of_le_length hk] at h
      exact hout x (List.mem_append_left _ (List.mem_of_mem_take h))
  · simp only [if_true]
    rw [htake]
    have hk : (pre.map (fun m => m.ID)).length + 1 ≤ k :=
      length_lt_of_mem_take _ _ _ _ hnodup ((hrun t.ID (by simp)).mp ht)
    rw [List.length_map] at hk
    constructor
    · intro h
      have hx2 : x ∈ (pre.map (fun m => m.ID) ++ [t.ID]) ++ post.map (fun m => m.ID) := by
        simpa using hx
      rcases List.mem_append.mp hx2 with h1 | h1
      · exact h1
      · exact absurd (hin x h1 h.1) h.2
    · intro h
      refine ⟨(hrun x hx).mpr ?_, hout x h⟩
      apply mem_take_mono hk
      rw [htake]
      exact h

theorem zero_run {σ : Type} (a : String) (rows : List Migration)
    (ms : List (GormMigration σ)) :
    AppliedRun (withoutRecords rows a (appliedUnits rows a ms)) (Application.mk a ms) 0 := by
  intro x hx
  obtain ⟨m, hm, e⟩ := List.mem_map.mp hx
  have := hasRecord_withoutRecords_applied rows a ms m hm
  rw [e] at this
  simp [this]

theorem deleteRecords_reverse {σ : Type} (a : String) (rows : List Migration) (n : Nat)
    (R : List (GormMigration σ)) (h : WellFormed rows n) :
    deleteRecords a rows R.reverse = withoutRecords rows a R := by
  rw [deleteRecords_eq_filter a _ rows n h]
  unfold withoutRecords
  apply List.filter_congr
  intro x _
  simp

theorem MigrateTo_unknown_error {σ : Type} (db : DB σ) (app : Application σ) (i : String)
    (hz : i ≠ "zero") (hu : i ∉ app.Migrations.map (fun m => m.ID)) :
    (MigrateTo db app i).1.2 ≠ none := by
  have hchk : (!MigrateTo.checkExists i app.Migrations && i != "zero") = true := by
    rw [checkExists_eq]; simp [hz, hu]
  cases h0 : db.fault 0
  · cases h1 : db.fault 1
    · simp [MigrateTo, AutoMigrate, DB.tick, h0, h1, Find, IsDBError, hchk]
    · simp [MigrateTo, AutoMigrate, DB.tick, h0, h1, Find, IsDBError, IsRecordNotFound,
        driverError, Error.isRecordNotFound, Wrap]
  · simp [MigrateTo, AutoMigrate, DB.tick, h0]

theorem ShowMigrationsForApp_healthy {σ : Type} (app : Application σ) (rows : List Migration)
    (n : Nat) (s : σ) :
    ShowMigrationsForApp ⟨rows, n, s, noFault⟩ app =
      ((app.Migrations.map (fun m => ⟨app, m, hasRecord rows app.Name m.ID⟩), none),
        ⟨rows, n, s, noFault⟩) := by
  simp [ShowMigrationsForApp, AutoMigrate, tick_noFault, Find, IsDBError,
    applied_eq_hasRecord, GormMigration.GetID]

theorem call_step {σ : Type} (app : Application σ)
    (hnodup : (app.Migrations.map (fun m => m.ID)).Nodup) (c : Call)
    (rows : List Migration) (n : Nat) (s : σ) (N : Nat) (hwf : WellFormed rows N)
    (hrun : ∃ k, k ≤ app.Migrations.length ∧ AppliedRun rows app k)
    (hok : (c.run ⟨rows, n, s, noFault⟩ app).1.2 = none) :
    ∃ rows1 n1 s1, (c.run ⟨rows, n, s, noFault⟩ app).2 = ⟨rows1, n1, s1, noFault⟩ ∧
      (WellFormed rows n → WellFormed rows1 n1) ∧
      ∃ j, j ≤ app.Migrations.length ∧ AppliedRun rows1 app j := by
  obtain ⟨k, hk, hrun⟩ := hrun
  cases c with
  | migrate =>
    simp only [Call.run] at hok ⊢
    rw [Migrate_ok app rows n s hok]
    obtain ⟨hnd, hprops⟩ := newlyApplied_props rows app.Name app.Migrations []
    refine ⟨_, _, _, rfl,
      fun hwfn => WellFormed_append app.Name _ hwfn hnd (fun m hm => (hprops m hm).2.1),
      app.Migrations.length, Nat.le_refl _, ?_⟩
    intro x hx
    obtain ⟨m, hm, e⟩ := List.mem_map.mp hx
    have hrec : hasRecord (rows ++ recordsFrom app.Name n
        (newlyApplied rows app.Name [] app.Migrations)) app.Name x = true := by
      rw [hasRecord_append_recordsFrom, ← e]
      rcases newlyApplied_covers rows app.Name app.Migrations [] m hm with h | h | h
      · simp [h]
      · cases h
      · simp [h]
    rw [hrec]
    have : (app.Migrations.map (fun m => m.ID)).take app.Migrations.length =
        app.Migrations.map (fun m => m.ID) := by
      rw [List.take_of_length_le]; simp
    rw [this]
    simp [hx]
  | showMigrationsForApp =>
    simp only [Call.run] at hok ⊢
    rw [ShowMigrationsForApp_healthy]
    exact ⟨_, _, _, rfl, fun hwfn => hwfn, k, hk, hrun⟩
  | migrateTo i =>
    simp only [Call.run] at hok ⊢
    by_cases hdeclared : i ∈ app.Migrations.map (fun m => m.ID)
    · obtain ⟨t, ht, rfl⟩ := List.mem_map.mp hdeclared
      obtain ⟨pre, post, hdecl⟩ := List.append_of_mem ht
      obtain ⟨a, ms⟩ := app
      simp only [] at hdecl
      subst hdecl
      simp only [] at hnodup hk hrun hok ⊢
      obtain ⟨hpre, hpost1, hpost⟩ := nodup_split hnodup
      by_cases hdir : t.ID = "zero" ∨ hasRecord rows a t.ID = true
      · have key : MigrateTo ⟨rows, n, s, noFault⟩ ⟨a, pre ++ t :: post⟩ t.ID =
            (((appliedUnits rows a post).reverse.map
                (fun m => ⟨⟨a, pre ++ t :: post⟩, m, false⟩), none),
              ⟨withoutRecords rows a (appliedUnits rows a post), n,
                runDown s (appliedUnits rows a post).reverse, noFault⟩) := by
          rw [MigrateTo_reverse_ok _ t.ID rows n s (Or.inr hdeclared) hdir hok]
          simp only []
          rw [reverse_walk_split pre post t hpost1, List.filter_reverse,
            ← deleteRecords_reverse a rows N _ hwf]
          rfl
        rw [key]
        refine ⟨_, _, _, rfl, fun hwfn => WellFormed_filter _ hwfn, _, ?_,
          reverse_run a rows k pre post t hnodup hrun⟩
        split
        · simp
        · exact hk
      · have hpending : hasRecord rows a t.ID = false := by
          rcases hr : hasRecord rows a t.ID with _ | _
          · rfl
          · exact absurd (Or.inr hr) hdir
        rw [MigrateTo_forward_ok _ t.ID rows n s (Or.inr hdeclared) hdir hok]
        simp only []
        rw [upToTarget_split t.ID t post rfl pre hpre]
        refine ⟨_, _, _, rfl, ?_, pre.length + 1, by simp, forward_run a rows n k pre post t
          hrun hpending⟩
        intro hwfn
        apply WellFormed_append a _ hwfn
        · have hsub : ((pre ++ [t]).filter (fun m => !hasRecord rows a m.ID)).Sublist
              (pre ++ t :: post) := by
            refine (List.filter_sublist _).trans ?_
            have : pre ++ t :: post = (pre ++ [t]) ++ post := by simp
            rw [this]
            exact List.sublist_append_left _ _
          exact hnodup.sublist (hsub.map _)
        · intro m hm
          have := (List.mem_filter.mp hm).2
          simpa using this
    · by_cases hz : i = "zero"
      · subst hz
        have hzero : ∀ m ∈ app.Migrations, m.ID ≠ "zero" := by
          intro m hm e
          exact hdeclared (by rw [← e]; exact List.mem_map_of_mem _ hm)
        rw [MigrateTo_zero_ok app rows n s N hwf hzero hok]
        refine ⟨_, _, _, rfl, fun hwfn => WellFormed_filter _ hwfn, 0, Nat.zero_le _, ?_⟩
        obtain ⟨a, ms⟩ := app
        exact zero_run a rows ms
      · exact absurd hok (MigrateTo_unknown_error _ app i hz hdeclared)

theorem mem_le_sum : ∀ (l : List Nat) (x : Nat), x ∈ l → x ≤ l.sum := by
  intro l
  induction l with
  | nil => intro x hx; cases hx
  | cons y rest ih =>
    intro x hx
    rcases List.mem_cons.mp hx with rfl | h
    · simp
    · have := ih x h
      simp only [List.sum_cons]
      omega

theorem WellFormed_of_invariants {rows : List Migration} (hpos : KeysPositive rows)
    (hdist : KeysDistinct rows) (hpairs : OneRowPerPair rows) :
    WellFormed rows ((rows.map (fun r => r.ID)).sum + 1) := by
  refine ⟨Nat.succ_pos _, ?_, hdist, hpairs⟩
  intro r hr
  have hle : r.ID ≤ (rows.map (fun r => r.ID)).sum :=
    mem_le_sum _ _ (List.mem_map_of_mem (fun r => r.ID) hr)
  exact ⟨hpos r hr, by omega⟩

theorem deleteRecord_sublist (rows : List Migration) (a i : String) :
    (deleteRecord rows a i).Sublist rows := by
  unfold deleteRecord
  split
  · split
    · exact List.Sublist.refl _
    · exact List.filter_sublist _
  · exact List.Sublist.refl _

theorem hasRecord_of_sublist {l1 l2 : List Migration} (h : l1.Sublist l2) (a i : String)
    (hr : hasRecord l2 a i = false) : hasRecord l1 a i = false := by
  rcases h1 : hasRecord l1 a i with _ | _
  · rfl
  · obtain ⟨r, hmem, e1, e2⟩ := (hasRecord_iff l1 a i).mp h1
    have : hasRecord l2 a i = true := (hasRecord_iff l2 a i).mpr ⟨r, h.subset hmem, e1, e2⟩
    rw [hr] at this
    cases this

theorem deleteRecord_clears {rows : List Migration} (hpos : KeysPositive rows)
    (hpairs : OneRowPerPair rows) (a i : String) :
    hasRecord (deleteRecord rows a i) a i = false := by
  unfold deleteRecord
  rcases hf : rows.find? (fun r => r.MigrationID == i && r.AppName == a) with _ | r
  · simp only [hf]
    simpa [hasRecord] using hf
  · have hr : r ∈ rows := List.mem_of_find?_eq_some hf
    have hp := List.find?_some hf
    simp only [Bool.and_eq_true, beq_iff_eq] at hp
    have h0 : r.ID ≠ 0 := Nat.pos_iff_ne_zero.mp (hpos r hr)
    simp only [hf]
    rw [if_neg h0]
    rcases h1 : hasRecord (rows.filter (fun x => x.ID != r.ID)) a i with _ | _
    · rfl
    · obtain ⟨x, hx, e1, e2⟩ := (hasRecord_iff _ a i).mp h1
      obtain ⟨hx1, hx2⟩ := List.mem_filter.mp hx
      have : x = r := eq_of_same_pair hpairs hx1 hr (e2.trans hp.2.symm) (e1.trans hp.1.symm)
      subst this
      simp at hx2

theorem deleteRecords_clears {σ : Type} (a : String) :
    ∀ (R : List (GormMigration σ)) (rows : List Migration), KeysPositive rows →
      OneRowPerPair rows →
      (deleteRecords a rows R).Sublist rows ∧
        ∀ m ∈ R, hasRecord (deleteRecords a rows R) a m.ID = false := by
  intro R
  induction R with
  | nil => intro rows _ _; exact ⟨List.Sublist.refl _, fun m hm => by cases hm⟩
  | cons x rest ih =>
    intro rows hpos hpairs
    have hsub := deleteRecord_sublist rows a x.ID
    have hpos1 : KeysPositive (deleteRecord rows a x.ID) := fun r hr => hpos r (hsub.subset hr)
    have hpairs1 : OneRowPerPair (deleteRecord rows a x.ID) := hpairs.sublist (hsub.map _)
    obtain ⟨h1, h2⟩ := ih (deleteRecord rows a x.ID) hpos1 hpairs1
    simp only [deleteRecords]
    refine ⟨h1.trans hsub, ?_⟩
    intro m hm
    rcases List.mem_cons.mp hm with rfl | hm
    · exact hasRecord_of_sublist h1 a m.ID (deleteRecord_clears hpos hpairs a m.ID)
    · exact h2 m hm

theorem MigrateTo_zero_clears {σ : Type} (app : Application σ) (rows : List Migration)
    (n : Nat) (s : σ) (hpos : KeysPositive rows) (hpairs : OneRowPerPair rows)
    (hzero : ∀ m ∈ app.Migrations, m.ID ≠ "zero")
    (hok : (MigrateTo ⟨rows, n, s, noFault⟩ app "zero").1.2 = none) :
    (MigrateTo ⟨rows, n, s, noFault⟩ app "zero").1.1 =
        (appliedUnits rows app.Name app.Migrations).reverse.map (fun m => ⟨app, m, false⟩) ∧
      (MigrateTo ⟨rows, n, s, noFault⟩ app "zero").2.schema =
        runDown s (appliedUnits rows app.Name app.Migrations).reverse ∧
      (MigrateTo ⟨rows, n, s, noFault⟩ app "zero").2.rows.Sublist rows ∧
      (∀ m ∈ app.Migrations,
        hasRecord (MigrateTo ⟨rows, n, s, noFault⟩ app "zero").2.rows app.Name m.ID = false) := by
  have hwalk : app.Migrations.reverse.takeWhile (fun m => m.ID != "zero") =
      app.Migrations.reverse := by
    apply takeWhile_all
    intro x hx
    have := hzero x (List.mem_reverse.mp hx)
    simpa using this
  have key : MigrateTo ⟨rows, n, s, noFault⟩ app "zero" =
      (((appliedUnits rows app.Name app.Migrations).reverse.map (fun m => ⟨app, m, false⟩),
          none),
        ⟨deleteRecords app.Name rows (appliedUnits rows app.Name app.Migrations).reverse, n,
          runDown s (appliedUnits rows app.Name app.Migrations).reverse, noFault⟩) := by
    rw [MigrateTo_reverse_ok app "zero" rows n s (Or.inl rfl) (Or.inl rfl) hok, hwalk,
      List.filter_reverse]
    rfl
  rw [key]
  obtain ⟨hsub, hclear⟩ := deleteRecords_clears app.Name
    (appliedUnits rows app.Name app.Migrations).reverse rows hpos hpairs
  refine ⟨rfl, rfl, hsub, ?_⟩
  intro m hm
  cases hr : hasRecord rows app.Name m.ID
  · exact hasRecord_of_sublist hsub _ _ hr
  · exact hclear m (List.mem_reverse.mpr (List.mem_filter.mpr ⟨hm, hr⟩))

theorem not_appliedRun_of_gap {σ : Type} (rows : List Migration) (a : String)
    (m0 m : GormMigration σ) (rest : List (GormMigration σ)) (hm : m ∈ rest)
    (h0 : hasRecord rows a m0.ID = false) (h1 : hasRecord rows a m.ID = true) :
    ¬ ∃ j, AppliedRun rows (Application.mk a (m0 :: rest)) j := by
  rintro ⟨j, h⟩
  unfold AppliedRun at h
  simp only [List.map_cons] at h
  cases j with
  | zero =>
    have := (h m.ID (List.mem_cons_of_mem _ (List.mem_map_of_mem _ hm))).mp h1
    simp at this
  | succ j =>
    have := (h m0.ID (List.mem_cons_self _ _)).mpr (by simp)
    rw [h0] at this
    cases this

theorem deleteRecord_eq_filter_nonzero {rows : List Migration} (hdist : KeysDistinct rows)
    (hpairs : OneRowPerPair rows) (a i : String) :
    deleteRecord rows a i =
      rows.filter (fun r => !(r.MigrationID == i && r.AppName == a && r.ID != 0)) := by
  unfold deleteRecord
  rcases hf : rows.find? (fun r => r.MigrationID == i && r.AppName == a) with _ | r
  · simp only [hf]
    symm
    rw [List.filter_eq_self]
    intro x hx
    have := List.find?_eq_none.mp hf x hx
    rcases hb : (x.MigrationID == i && x.AppName == a) with _ | _
    · rfl
    · exact absurd hb this
  · have hr : r ∈ rows := List.mem_of_find?_eq_some hf
    have hp := List.find?_some hf
    simp only [Bool.and_eq_true, beq_iff_eq] at hp
    simp only [hf]
    by_cases h0 : r.ID = 0
    · rw [if_pos h0]
      symm
      rw [List.filter_eq_self]
      intro x hx
      by_cases hm : x.MigrationID = i ∧ x.AppName = a
      · have : x = r := eq_of_same_pair hpairs hx hr (hm.2.trans hp.2.symm)
          (hm.1.trans hp.1.symm)
        subst this
        simp [h0]
      · have : (x.MigrationID == i && x.AppName == a) = false := by
          rcases hb : (x.MigrationID == i && x.AppName == a) with _ | _
          · rfl
          · exact absurd (by simpa using hb) hm
        simp [this]
    · rw [if_neg h0]
      apply List.filter_congr
      intro x hx
      by_cases e : x.ID = r.ID
      · have : x = r := eq_of_same_key hdist hx hr e
        subst this
        simp [hp.1, hp.2, h0]
      · have hne : ¬ (x.MigrationID = i ∧ x.AppName = a) := by
          rintro ⟨e1, e2⟩
          exact e (congrArg _ (eq_of_same_pair hpairs hx hr (e2.trans hp.2.symm)
            (e1.trans hp.1.symm)))
        have : (x.MigrationID == i && x.AppName == a) = false := by
          rcases hb : (x.MigrationID == i && x.AppName == a) with _ | _
          · rfl
          · exact absurd (by simpa using hb) hne
        simp [this, e]

theorem deleteRecords_eq_filter_nonzero {σ : Type} (a : String) :
    ∀ (R : List (GormMigration σ)) (rows : List Migration), KeysDistinct rows →
      OneRowPerPair rows →
      deleteRecords a rows R =
        rows.filter (fun r =>
          !(r.AppName == a && decide (r.MigrationID ∈ R.map (fun m => m.ID)) && r.ID != 0)) := by
  intro R
  induction R with
  | nil => intro rows _ _; simp [deleteRecords]
  | cons m rest ih =>
    intro rows hdist hpairs
    simp only [deleteRecords]
    rw [deleteRecord_eq_filter_nonzero hdist hpairs,
      ih _ (hdist.sublist ((List.filter_sublist rows).map _))
        (hpairs.sublist ((List.filter_sublist rows).map _)), List.filter_filter]
    apply List.filter_congr
    intro x _
    by_cases e1 : x.AppName = a <;> by_cases e2 : x.MigrationID = m.ID <;>
      by_cases e3 : x.ID = 0 <;> simp [e1, e2, e3]

theorem Reachable_filter {σ : Type} {rows : List Migration} {n : Nat} {app : Application σ}
    (p : Migration → Bool) (h : Reachable rows n app) : Reachable (rows.filter p) n app := by
  obtain ⟨h1, h2, h3, h4⟩ := h
  exact ⟨h1.sublist ((List.filter_sublist rows).map _),
    fun r hr => h2 r (List.mem_of_mem_filter hr),
    h3.sublist ((List.filter_sublist rows).map _),
    fun r hr => h4 r (List.mem_of_mem_filter hr)⟩

theorem recordsFrom_first {σ : Type} (a : String) :
    ∀ (P : List (GormMigration σ)) (n : Nat) (r : Migration), r ∈ recordsFrom a n P →
      r.ID = n → r.AppName = a ∧ P.head?.map (fun m => m.ID) = some r.MigrationID := by
  intro P
  cases P with
  | nil => intro n r hr; simp [recordsFrom] at hr
  | cons m rest =>
    intro n r hr hid
    simp only [recordsFrom, List.mem_cons] at hr
    rcases hr with rfl | hr
    · simp
    · have : r.ID ∈ (recordsFrom a (n + 1) rest).map (fun r => r.ID) :=
        List.mem_map_of_mem _ hr
      rw [recordsFrom_keys] at this
      have := (List.mem_range'_1.mp this).1
      omega

theorem Reachable_append {σ : Type} {rows : List Migration} {n : Nat} (app : Application σ)
    (P : List (GormMigration σ)) (h : Reachable rows n app)
    (hnd : (P.map (fun m => m.ID)).Nodup)
    (hnew : ∀ m ∈ P, hasRecord rows app.Name m.ID = false)
    (hhead : rows = [] → P.head?.map (fun m => m.ID) =
      app.Migrations.head?.map (fun m => m.ID)) :
    Reachable (rows ++ recordsFrom app.Name n P) (n + P.length) app := by
  obtain ⟨h2, h1, h3, h4⟩ := h
  have hkeys : ∀ r ∈ recordsFrom app.Name n P, n ≤ r.ID ∧ r.ID < n + P.length := by
    intro r hr
    have : r.ID ∈ (recordsFrom app.Name n P).map (fun r => r.ID) := List.mem_map_of_mem _ hr
    rw [recordsFrom_keys] at this
    simpa [List.mem_range'_1] using this
  refine ⟨?_, ?_, ?_, ?_⟩
  · unfold KeysDistinct
    rw [List.map_append, List.nodup_append]
    refine ⟨h2, ?_, ?_⟩
    · rw [recordsFrom_keys]; exact List.nodup_range' _ _
    · intro x hx hy
      obtain ⟨r, hr, rfl⟩ := List.mem_map.mp hx
      obtain ⟨r2, hr2, e⟩ := List.mem_map.mp hy
      have := h1 r hr
      have := hkeys r2 hr2
      omega
  · intro r hr
    rcases List.mem_append.mp hr with hr | hr
    · have := h1 r hr; omega
    · exact (hkeys r hr).2
  · unfold OneRowPerPair
    rw [List.map_append, List.nodup_append]
    refine ⟨h3, ?_, ?_⟩
    · rw [recordsFrom_pairs]
      have : P.map (fun m => (app.Name, m.ID)) =
          (P.map (fun m => m.ID)).map (fun i => (app.Name, i)) := by simp
      rw [this]
      exact hnd.map (fun x y e => by simpa using e)
    · intro x hx hy
      rw [recordsFrom_pairs] at hy
      obtain ⟨r, hr, rfl⟩ := List.mem_map.mp hx
      obtain ⟨m, hm, e⟩ := List.mem_map.mp hy
      have hrec : hasRecord rows app.Name m.ID = true := by
        rw [hasRecord_iff]
        simp only [Prod.mk.injEq] at e
        exact ⟨r, hr, e.2.symm, e.1.symm⟩
      rw [hnew m hm] at hrec
      cases hrec
  · intro r hr h0
    rcases List.mem_append.mp hr with hr | hr
    · exact h4 r hr h0
    · have hn : n = 0 := by have := (hkeys r hr).1; omega
      have hempty : rows = [] := by
        rw [List.eq_nil_iff_forall_not_mem]
        intro x hx
        have := h1 x hx
        omega
      obtain ⟨ha, hfirst⟩ := recordsFrom_first app.Name P n r hr (by omega)
      exact ⟨ha, by rw [← hhead hempty]; exact hfirst⟩

theorem hasRecord_filter_nonzero (rows : List Migration) (a : String) (ids : List String)
    (i : String) :
    hasRecord (rows.filter (fun r =>
        !(r.AppName == a && decide (r.MigrationID ∈ ids) && r.ID != 0))) a i = true ↔
      ∃ r ∈ rows, r.MigrationID = i ∧ r.AppName = a ∧ (i ∉ ids ∨ r.ID = 0) := by
  rw [hasRecord_iff]
  constructor
  · rintro ⟨r, hr, e1, e2⟩
    obtain ⟨hr1, hr2⟩ := List.mem_filter.mp hr
    refine ⟨r, hr1, e1, e2, ?_⟩
    by_cases hi : i ∈ ids
    · right
      by_contra h0
      simp [e1, e2, hi, h0] at hr2
    · exact Or.inl hi
  · rintro ⟨r, hr, e1, e2, h⟩
    refine ⟨r, List.mem_filter.mpr ⟨hr, ?_⟩, e1, e2⟩
    rcases h with h | h
    · simp [e1, h]
    · simp [h]

theorem zero_run_reachable {σ : Type} (app : Application σ) (rows : List Migration)
    (hzk : ZeroKeyIsFirst rows app) :
    ∃ j, j ≤ app.Migrations.length ∧
      AppliedRun (rows.filter (fun r =>
        !(r.AppName == app.Name &&
          decide (r.MigrationID ∈
            (appliedUnits rows app.Name app.Migrations).reverse.map (fun m => m.ID)) &&
          r.ID != 0))) app j := by
  have hall : ∀ i ∈ app.Migrations.map (fun m => m.ID), hasRecord rows app.Name i = true →
      i ∈ (appliedUnits rows app.Name app.Migrations).reverse.map (fun m => m.ID) := by
    intro i hi hr
    obtain ⟨m, hm, e⟩ := List.mem_map.mp hi
    rw [← e]
    exact List.mem_map_of_mem _ (List.mem_reverse.mpr
      (List.mem_filter.mpr ⟨hm, by rw [e]; exact hr⟩))
  by_cases hz : ∃ r ∈ rows, r.ID = 0 ∧ r.AppName = app.Name ∧
      r.MigrationID ∈ app.Migrations.map (fun m => m.ID)
  · obtain ⟨r0, hr0, h0, ha0, hmem0⟩ := hz
    obtain ⟨-, hfirst⟩ := hzk r0 hr0 h0
    obtain ⟨a, ms⟩ := app
    cases ms with
    | nil => simp at hmem0
    | cons u rest =>
      simp only [List.head?_cons, Option.map_some', Option.some.injEq] at hfirst
      refine ⟨1, by simp, ?_⟩
      intro i hi
      rw [hasRecord_filter_nonzero]
      simp only [List.map_cons, List.take_succ_cons, List.take_zero, List.mem_singleton]
      constructor
      · rintro ⟨r, hr, e1, e2, h⟩
        rcases h with h | h
        · exact absurd (hall i hi ((hasRecord_iff _ _ _).mpr ⟨r, hr, e1, e2⟩)) h
        · have := (hzk r hr h).2
          simp only [List.head?_cons, Option.map_some', Option.some.injEq] at this
          rw [← e1, this]
      · intro e
        exact ⟨r0, hr0, by rw [e, hfirst], ha0, Or.inr h0⟩
  · refine ⟨0, Nat.zero_le _, ?_⟩
    intro i hi
    rw [hasRecord_filter_nonzero]
    simp only [List.take_zero, List.not_mem_nil, iff_false]
    rintro ⟨r, hr, e1, e2, h⟩
    rcases h with h | h
    · exact h (hall i hi ((hasRecord_iff _ _ _).mpr ⟨r, hr, e1, e2⟩))
    · exact hz ⟨r, hr, h, e2, by rw [e1]; exact hi⟩

theorem head_mem_split {σ : Type} (pre post : List (GormMigration σ)) (t : GormMigration σ)
    (i : String) (h : (pre ++ t :: post).head?.map (fun m => m.ID) = some i) :
    i ∈ (pre ++ [t]).map (fun m => m.ID) := by
  cases pre with
  | nil => simp at h; simp [h]
  | cons p rest => simp at h; simp [h]

theorem seq_step {σ : Type} (app : Application σ)
    (hnodup : (app.Migrations.map (fun m => m.ID)).Nodup) (c : Call)
    (rows : List Migration) (n : Nat) (s : σ) (hinv : Reachable rows n app)
    (hrun : ∃ k, k ≤ app.Migrations.length ∧ AppliedRun rows app k)
    (hok : (c.run ⟨rows, n, s, noFault⟩ app).1.2 = none) :
    ∃ rows1 n1 s1, (c.run ⟨rows, n, s, noFault⟩ app).2 = ⟨rows1, n1, s1, noFault⟩ ∧
      Reachable rows1 n1 app ∧
      ∃ j, j ≤ app.Migrations.length ∧ AppliedRun rows1 app j := by
  obtain ⟨k, hk, hrun⟩ := hrun
  cases c with
  | migrate =>
    simp only [Call.run] at hok ⊢
    rw [Migrate_ok app rows n s hok]
    obtain ⟨hnd, hprops⟩ := newlyApplied_props rows app.Name app.Migrations []
    have hhead : rows = [] → (newlyApplied rows app.Name [] app.Migrations).head?.map
        (fun m => m.ID) = app.Migrations.head?.map (fun m => m.ID) := by
      intro he
      subst he
      cases h : app.Migrations with
      | nil => simp [newlyApplied]
      | cons u rest => simp [newlyApplied, hasRecord]
    refine ⟨_, _, _, rfl,
      Reachable_append app _ hinv hnd (fun m hm => (hprops m hm).2.1) hhead,
      app.Migrations.length, Nat.le_refl _, ?_⟩
    intro x hx
    obtain ⟨m, hm, e⟩ := List.mem_map.mp hx
    have hrec : hasRecord (rows ++ recordsFrom app.Name n
        (newlyApplied rows app.Name [] app.Migrations)) app.Name x = true := by
      rw [hasRecord_append_recordsFrom, ← e]
      rcases newlyApplied_covers rows app.Name app.Migrations [] m hm with h | h | h
      · simp [h]
      · cases h
      · simp [h]
    rw [hrec]
    have : (app.Migrations.map (fun m => m.ID)).take app.Migrations.length =
        app.Migrations.map (fun m => m.ID) := by
      rw [List.take_of_length_le]; simp
    rw [this]
    simp [hx]
  | showMigrationsForApp =>
    simp only [Call.run] at hok ⊢
    rw [ShowMigrationsForApp_healthy]
    exact ⟨_, _, _, rfl, hinv, k, hk, hrun⟩
  | migrateTo i =>
    simp only [Call.run] at hok ⊢
    by_cases hdeclared : i ∈ app.Migrations.map (fun m => m.ID)
    · obtain ⟨t, ht, rfl⟩ := List.mem_map.mp hdeclared
      obtain ⟨pre, post, hdecl⟩ := List.append_of_mem ht
      obtain ⟨a, ms⟩ := app
      simp only [] at hdecl
      subst hdecl
      simp only [] at hnodup hk hrun hok ⊢
      obtain ⟨hpre, hpost1, hpost⟩ := nodup_split hnodup
      by_cases hdir : t.ID = "zero" ∨ hasRecord rows a t.ID = true
      · have hrows : deleteRecords a rows (appliedUnits rows a post).reverse =
            withoutRecords rows a (appliedUnits rows a post) := by
          rw [deleteRecords_eq_filter_nonzero a _ rows hinv.1 hinv.2.2.1]
          unfold withoutRecords
          apply List.filter_congr
          intro x hx
          by_cases e1 : x.AppName = a
          · by_cases e2 : x.MigrationID ∈ (appliedUnits rows a post).map (fun m => m.ID)
            · have h0 : x.ID ≠ 0 := by
                intro h0
                have hf := (hinv.2.2.2 x hx h0).2
                have hin := head_mem_split pre post t x.MigrationID hf
                obtain ⟨m, hm, e⟩ := List.mem_map.mp e2
                exact hpost m (List.mem_of_mem_filter hm) (by rw [e]; exact hin)
              simp [e1, e2, h0]
            · simp [e1, e2]
          · simp [e1]
        have key : MigrateTo ⟨rows, n, s, noFault⟩ ⟨a, pre ++ t :: post⟩ t.ID =
            (((appliedUnits rows a post).reverse.map
                (fun m => ⟨⟨a, pre ++ t :: post⟩, m, false⟩), none),
              ⟨withoutRecords rows a (appliedUnits rows a post), n,
                runDown s (appliedUnits rows a post).reverse, noFault⟩) := by
          rw [MigrateTo_reverse_ok _ t.ID rows n s (Or.inr hdeclared) hdir hok]
          simp only []
          rw [reverse_walk_split pre post t hpost1, List.filter_reverse, ← hrows]
          rfl
        rw [key]
        refine ⟨_, _, _, rfl, Reachable_filter _ hinv, _, ?_,
          reverse_run a rows k pre post t hnodup hrun⟩
        split
        · simp
        · exact hk
      · have hpending : hasRecord rows a t.ID = false := by
          rcases hr : hasRecord rows a t.ID with _ | _
          · rfl
          · exact absurd (Or.inr hr) hdir
        rw [MigrateTo_forward_ok _ t.ID rows n s (Or.inr hdeclared) hdir hok]
        simp only []
        rw [upToTarget_split t.ID t post rfl pre hpre]
        refine ⟨_, _, _, rfl, ?_, pre.length + 1, by simp, forward_run a rows n k pre post t
          hrun hpending⟩
        apply Reachable_append ⟨a, pre ++ t :: post⟩ _ hinv
        · have hsub : ((pre ++ [t]).filter (fun m => !hasRecord rows a m.ID)).Sublist
              (pre ++ t :: post) := by
            refine (List.filter_sublist _).trans ?_
            have : pre ++ t :: post = (pre ++ [t]) ++ post := by simp
            rw [this]
            exact List.sublist_append_left _ _
          exact hnodup.sublist (hsub.map _)
        · intro m hm
          have := (List.mem_filter.mp hm).2
          simpa using this
        · intro he
          subst he
          cases pre <;> simp [hasRecord]
    · by_cases hz : i = "zero"
      · subst hz
        have hzero : ∀ m ∈ app.Migrations, m.ID ≠ "zero" := by
          intro m hm e
          exact hdeclared (by rw [← e]; exact List.mem_map_of_mem _ hm)
        have hwalk : app.Migrations.reverse.takeWhile (fun m => m.ID != "zero") =
            app.Migrations.reverse := by
          apply takeWhile_all
          intro x hx
          have := hzero x (List.mem_reverse.mp hx)
          simpa using this
        have key : MigrateTo ⟨rows, n, s, noFault⟩ app "zero" =
            (((appliedUnits rows app.Name app.Migrations).reverse.map
                (fun m => ⟨app, m, false⟩), none),
              ⟨rows.filter (fun r =>
                  !(r.AppName == app.Name &&
                    decide (r.MigrationID ∈
                      (appliedUnits rows app.Name app.Migrations).reverse.map
                        (fun m => m.ID)) &&
                    r.ID != 0)), n,
                runDown s (appliedUnits rows app.Name app.Migrations).reverse, noFault⟩) := by
          rw [MigrateTo_reverse_ok app "zero" rows n s (Or.inl rfl) (Or.inl rfl) hok, hwalk,
            List.filter_reverse,
            ← deleteRecords_eq_filter_nonzero app.Name _ rows hinv.1 hinv.2.2.1]
          rfl
        rw [key]
        exact ⟨_, _, _, rfl, Reachable_filter _ hinv, zero_run_reachable app rows hinv.2.2.2⟩
      · exact absurd hok (MigrateTo_unknown_error _ app i hz hdeclared)

theorem runCalls_reachable {σ : Type} (app : Application σ)
    (hnodup : (app.Migrations.map (fun m => m.ID)).Nodup) :
    ∀ (calls : List Call) (rows : List Migration) (n : Nat) (s : σ) (db1 : DB σ),
      Reachable rows n app →
      (∃ k, k ≤ app.Migrations.length ∧ AppliedRun rows app k) →
      runCalls app calls ⟨rows, n, s, noFault⟩ = some db1 →
      ∃ j, j ≤ app.Migrations.length ∧ AppliedRun db1.rows app j := by
  intro calls
  induction calls with
  | nil =>
    intro rows n s db1 _ hrun h
    simp only [runCalls, Option.some.injEq] at h
    subst h
    exact hrun
  | cons c rest ih =>
    intro rows n s db1 hinv hrun h
    rcases hc : c.run ⟨rows, n, s, noFault⟩ app with ⟨⟨st, _ | e⟩, db2⟩
    · obtain ⟨rows1, n1, s1, h1, hinv1, hrun1⟩ := seq_step app hnodup c rows n s hinv hrun
        (by rw [hc])
      rw [hc] at h1
      simp only [] at h1
      subst h1
      simp only [runCalls, hc] at h
      exact ih rows1 n1 s1 db1 hinv1 hrun1 h
    · simp [runCalls, hc] at h

/-! ## The claims -/

/-- C3. Sync-to-latest on a store that does not fail.  When every `up`
succeeds the call succeeds.  A successful call returns, in declared order, one
status with `Applied = true` for each unit that had no ledger row for
`(app name, unit ID)` (a unit that repeats the identifier of an earlier unit is
met with that row already there), has run the `up` of exactly those units in
that order, has appended one row for each of them and left every other row as
it was, and leaves every declared unit with a ledger row.  With pairwise
distinct identifiers these are the declared units without a row before the
call.  An empty unit list gives an empty status list and changes nothing. -/
theorem C3_migrate_sync {σ : Type} (db : DB σ) (app : Application σ)
    (hstore : ∀ n, db.fault n = false) :
    ((∀ m ∈ app.Migrations, ∀ s, (m.OnUp s).1 = none) → (Migrate db app).1.2 = none) ∧
    ((Migrate db app).1.2 = none →
      (Migrate db app).1.1 =
        (newlyApplied db.rows app.Name [] app.Migrations).map (fun m => ⟨app, m, true⟩) ∧
      (Migrate db app).2.rows =
        db.rows ++ recordsFrom app.Name db.nextID
          (newlyApplied db.rows app.Name [] app.Migrations) ∧
      (Migrate db app).2.schema =
        runUp db.schema (newlyApplied db.rows app.Name [] app.Migrations) ∧
      (∀ m ∈ app.Migrations, hasRecord (Migrate db app).2.rows app.Name m.ID = true)) ∧
    ((app.Migrations.map (fun m => m.ID)).Nodup →
      newlyApplied db.rows app.Name [] app.Migrations =
        app.Migrations.filter (fun m => !hasRecord db.rows app.Name m.ID)) ∧
    (app.Migrations = [] →
      (Migrate db app).1 = ([], none) ∧ (Migrate db app).2.rows = db.rows ∧
        (Migrate db app).2.schema = db.schema) := by
  obtain ⟨rows, n, s, fault⟩ := db
  obtain rfl : fault = noFault := funext hstore
  refine ⟨?_, ?_, ?_, ?_⟩
  · intro hup
    rw [Migrate_healthy]
    have h1 := Migrate_loop_total app app.Migrations [] rows n s hup
    rcases h : Migrate.loop app app.Migrations [] ⟨rows, n, s, noFault⟩ with ⟨⟨_ | e, st⟩, db1⟩
    · have h2 := Migrate_loop_ok app rows app.Migrations [] [] rows n s (by simp) h1
      have h3 := h.symm.trans h2
      simp only [Prod.mk.injEq, true_and] at h3
      obtain ⟨-, rfl⟩ := h3
      simp [Tx.Commit, tick_noFault]
    · rw [h] at h1; cases h1
  · intro hok
    rw [Migrate_ok app rows n s hok]
    refine ⟨rfl, rfl, rfl, ?_⟩
    intro m hm
    simp only []
    rw [hasRecord_append_recordsFrom]
    rcases newlyApplied_covers rows app.Name app.Migrations [] m hm with h | h | h
    · simp [h]
    · cases h
    · simp [h]
  · intro hnd
    exact newlyApplied_eq_filter rows app.Name app.Migrations [] (by simp) hnd
  · intro hnil
    simp [Migrate_healthy, hnil, Migrate.loop, Tx.Commit, tick_noFault]

/-- A run of C3: the test application on an empty ledger. -/
theorem C3_migrate_sync_witness :
    summary (Migrate emptyDB UserApp).1.1 =
        [("0001_add_user", true), ("0002_add_user_first_name", true)] ∧
      (Migrate emptyDB UserApp).2.rows =
        [⟨1, "0001_add_user", "users"⟩, ⟨2, "0002_add_user_first_name", "users"⟩] := by
  have h := C3_migrate_sync emptyDB UserApp (fun _ => rfl)
  have hok : (Migrate emptyDB UserApp).1.2 = none := by
    apply h.1
    intro m hm s
    simp only [UserApp, List.mem_cons, List.mem_singleton, List.not_mem_nil, or_false] at hm
    rcases hm with rfl | rfl <;> rfl
  obtain ⟨h1, h2, -⟩ := h.2.1 hok
  rw [h1, h2]
  constructor <;> decide

/-- C8. Idempotence of sync on a store that does not fail: when a first
`Migrate` succeeds, a second `Migrate` of the same application right after it
succeeds, returns an empty status list, runs no `up` (the rest of the database
is untouched) and leaves the ledger rows and the next key as the first call
left them. -/
theorem C8_migrate_idempotent {σ : Type} (db : DB σ) (app : Application σ)
    (hstore : ∀ n, db.fault n = false) (hfirst : (Migrate db app).1.2 = none) :
    (Migrate (Migrate db app).2 app).1 = ([], none) ∧
      (Migrate (Migrate db app).2 app).2.rows = (Migrate db app).2.rows ∧
      (Migrate (Migrate db app).2 app).2.schema = (Migrate db app).2.schema ∧
      (Migrate (Migrate db app).2 app).2.nextID = (Migrate db app).2.nextID := by
  obtain ⟨rows, n, s, fault⟩ := db
  obtain rfl : fault = noFault := funext hstore
  rw [Migrate_ok app rows n s hfirst]
  simp only []
  have hall : ∀ m ∈ app.Migrations,
      hasRecord (rows ++ recordsFrom app.Name n (newlyApplied rows app.Name [] app.Migrations))
        app.Name m.ID = true := by
    intro m hm
    rw [hasRecord_append_recordsFrom]
    rcases newlyApplied_covers rows app.Name app.Migrations [] m hm with h | h | h
    · simp [h]
    · cases h
    · simp [h]
  rw [Migrate_healthy, Migrate_loop_all_applied app app.Migrations [] _ _ _ hall]
  simp [Tx.Commit, tick_noFault]

/-- A run of C8: syncing the test application twice from an empty ledger. -/
theorem C8_migrate_idempotent_witness :
    summary (Migrate (Migrate emptyDB UserApp).2 UserApp).1.1 = [] ∧
      (Migrate (Migrate emptyDB UserApp).2 UserApp).1.2 = none ∧
      (Migrate (Migrate emptyDB UserApp).2 UserApp).2.rows =
        [⟨1, "0001_add_user", "users"⟩, ⟨2, "0002_add_user_first_name", "users"⟩] := by
  have h := C8_migrate_idempotent emptyDB UserApp (fun _ => rfl) (by decide)
  refine ⟨by rw [h.1]; rfl, by rw [h.1], ?_⟩
  rw [h.2.1]
  decide

/-- C9. `ShowMigrationsForApp`, when its two store statements (ensuring the
table, reading the rows of the application) succeed: the call succeeds and
returns exactly one status per declared unit, in declared order, carrying the
application and that unit, with `Applied` true exactly when the ledger holds a
row with that unit's identifier and the application's name; the ledger rows,
the next key and the rest of the database are untouched; an empty unit list
gives an empty result. -/
theorem C9_show_migrations {σ : Type} (db : DB σ) (app : Application σ)
    (hread : db.fault 0 = false ∧ db.fault 1 = false) :
    (ShowMigrationsForApp db app).1.2 = none ∧
      (ShowMigrationsForApp db app).1.1 =
        app.Migrations.map (fun m => ⟨app, m, hasRecord db.rows app.Name m.ID⟩) ∧
      (∀ m : GormMigration σ, hasRecord db.rows app.Name m.ID = true ↔
        ∃ r ∈ db.rows, r.MigrationID = m.ID ∧ r.AppName = app.Name) ∧
      (ShowMigrationsForApp db app).2.rows = db.rows ∧
      (ShowMigrationsForApp db app).2.nextID = db.nextID ∧
      (ShowMigrationsForApp db app).2.schema = db.schema ∧
      (app.Migrations = [] → (ShowMigrationsForApp db app).1.1 = []) := by
  obtain ⟨h0, h1⟩ := hread
  have e : ShowMigrationsForApp db app =
      ((app.Migrations.map (fun m => ⟨app, m, hasRecord db.rows app.Name m.ID⟩), none),
        (db.tick.2).tick.2) := by
    simp [ShowMigrationsForApp, AutoMigrate, DB.tick, h0, h1, Find, IsDBError,
      applied_eq_hasRecord, GormMigration.GetID]
  rw [e]
  refine ⟨rfl, rfl, fun m => hasRecord_iff _ _ _, rfl, rfl, rfl, ?_⟩
  intro hnil
  simp [hnil]

/-- A run of C9: the status of the test application once its first unit is
applied. -/
theorem C9_show_migrations_witness :
    summary (ShowMigrationsForApp (MigrateTo emptyDB UserApp "0001_add_user").2 UserApp).1.1 =
      [("0001_add_user", true), ("0002_add_user_first_name", false)] := by
  have h := C9_show_migrations (MigrateTo emptyDB UserApp "0001_add_user").2 UserApp
    ⟨rfl, rfl⟩
  rw [h.2.1]
  decide

/-- C7. Unknown target rejection.  A target that is neither `"zero"` nor the
identifier of a declared unit makes `MigrateTo` return an error and an empty
status list, with the ledger rows, the next key and the rest of the database
(no `up` or `down` has run) as before the call; when the two store statements
before the check succeed the error is `migration do not exists`.  A target that
is `"zero"` or a declared identifier never gets that error. -/
theorem C7_unknown_target {σ : Type} (db : DB σ) (app : Application σ) (migrationID : String) :
    (migrationID ≠ "zero" ∧ migrationID ∉ app.Migrations.map (fun m => m.ID) →
      (MigrateTo db app migrationID).1.2 ≠ none ∧
      (MigrateTo db app migrationID).1.1 = [] ∧
      (MigrateTo db app migrationID).2.rows = db.rows ∧
      (MigrateTo db app migrationID).2.nextID = db.nextID ∧
      (MigrateTo db app migrationID).2.schema = db.schema ∧
      (db.fault 0 = false → db.fault 1 = false →
        (MigrateTo db app migrationID).1.2 =
          some (Error.New ("migration do not exists: " ++ migrationID)))) ∧
    (migrationID = "zero" ∨ migrationID ∈ app.Migrations.map (fun m => m.ID) →
      (MigrateTo db app migrationID).1.2 ≠
        some (Error.New ("migration do not exists: " ++ migrationID))) := by
  constructor
  · rintro ⟨hz, hu⟩
    have hchk : (!MigrateTo.checkExists migrationID app.Migrations && migrationID != "zero")
        = true := by
      rw [checkExists_eq]; simp [hz, hu]
    cases h0 : db.fault 0
    · cases h1 : db.fault 1
      · simp [MigrateTo, AutoMigrate, DB.tick, h0, h1, Find, IsDBError, hchk]
      · simp [MigrateTo, AutoMigrate, DB.tick, h0, h1, Find, IsDBError, IsRecordNotFound,
          driverError, Error.isRecordNotFound, Wrap]
    · simp [MigrateTo, AutoMigrate, DB.tick, h0]
  · intro hknown
    have hchk : (!MigrateTo.checkExists migrationID app.Migrations && migrationID != "zero")
        = false := by
      rw [checkExists_eq]
      rcases hknown with h | h
      · simp [h]
      · simp [h]
    unfold MigrateTo
    simp only [hchk]
    repeat' split
    all_goals simp_all [Wrap]

/-- A run of C7: the test application has no unit `nope`. -/
theorem C7_unknown_target_witness :
    (MigrateTo emptyDB UserApp "nope").1.2 =
        some (Error.New ("migration do not exists: " ++ "nope")) ∧
      (MigrateTo emptyDB UserApp "nope").2.rows = [] :=
  ⟨(C7_unknown_target emptyDB UserApp "nope").1 ⟨by decide, by decide⟩ |>.2.2.2.2.2 rfl rfl,
    (C7_unknown_target emptyDB UserApp "nope").1 ⟨by decide, by decide⟩ |>.2.2.1⟩

/-- C5, as stated, fails for a declared unit named `zero`: with the single
declared unit `zero` and an empty ledger the target is declared and has no
ledger row, `MigrateTo` succeeds, and the target still has no ledger row. -/
theorem C5_counterexample :
    ((Application.mk "users" [okUnit "zero"]).Migrations.map (fun m => m.ID)).Nodup ∧
      "zero" ∈ (Application.mk "users" [okUnit "zero"]).Migrations.map (fun m => m.ID) ∧
      hasRecord emptyDB.rows "users" "zero" = false ∧
      (MigrateTo emptyDB (Application.mk "users" [okUnit "zero"]) "zero").1.2 = none ∧
      summary (MigrateTo emptyDB (Application.mk "users" [okUnit "zero"]) "zero").1.1 = [] ∧
      hasRecord (MigrateTo emptyDB (Application.mk "users" [okUnit "zero"]) "zero").2.rows
        "users" "zero" = false := by
  refine ⟨by decide, by decide, by decide, by decide, by decide, by decide⟩

/-- C5, amended.  `MigrateTo` towards a target that is not applied yet, on a
store that does not fail: for an application with pairwise distinct unit
identifiers, declared as `pre ++ t :: post`, whose target `t` is not named
`zero` and has no ledger row, a successful call returns, in declared order,
one status with `Applied = true` for each unit of `pre ++ [t]` that had no
ledger row, has run the `up` of exactly those units in that order and appended
one row for each of them, leaving every other row as it was; afterwards the
target has a ledger row, and every unit of `post` has a row exactly when it had
one before. -/
theorem C5_migrate_to_forward {σ : Type} (db : DB σ) (app : Application σ)
    (pre post : List (GormMigration σ)) (t : GormMigration σ)
    (hstore : ∀ n, db.fault n = false)
    (hdecl : app.Migrations = pre ++ t :: post)
    (hnodup : (app.Migrations.map (fun m => m.ID)).Nodup)
    (hzero : t.ID ≠ "zero")
    (hpending : hasRecord db.rows app.Name t.ID = false)
    (hok : (MigrateTo db app t.ID).1.2 = none) :
    (MigrateTo db app t.ID).1.1 =
        ((pre ++ [t]).filter (fun m => !hasRecord db.rows app.Name m.ID)).map
          (fun m => ⟨app, m, true⟩) ∧
      (MigrateTo db app t.ID).2.rows =
        db.rows ++ recordsFrom app.Name db.nextID
          ((pre ++ [t]).filter (fun m => !hasRecord db.rows app.Name m.ID)) ∧
      (MigrateTo db app t.ID).2.schema =
        runUp db.schema ((pre ++ [t]).filter (fun m => !hasRecord db.rows app.Name m.ID)) ∧
      hasRecord (MigrateTo db app t.ID).2.rows app.Name t.ID = true ∧
      (∀ m ∈ post, hasRecord (MigrateTo db app t.ID).2.rows app.Name m.ID =
        hasRecord db.rows app.Name m.ID) := by
  obtain ⟨rows, n, s, fault⟩ := db
  obtain rfl : fault = noFault := funext hstore
  simp only [] at hpending ⊢
  have hknown : t.ID = "zero" ∨ t.ID ∈ app.Migrations.map (fun m => m.ID) := by
    right; rw [hdecl]; simp
  have hdir : ¬ (t.ID = "zero" ∨ hasRecord rows app.Name t.ID = true) := by
    rw [hpending]; simp [hzero]
  rw [hdecl] at hnodup
  obtain ⟨hpre, -, hpost⟩ := nodup_split hnodup
  rw [MigrateTo_forward_ok app t.ID rows n s hknown hdir hok, hdecl,
    upToTarget_split t.ID t post rfl pre hpre]
  refine ⟨rfl, rfl, rfl, ?_, ?_⟩
  · simp only []
    rw [hasRecord_append_recordsFrom]
    simp [hpending]
  · intro m hm
    simp only []
    rw [hasRecord_append_recordsFrom]
    have hnot : m.ID ∉ ((pre ++ [t]).filter (fun m => !hasRecord rows app.Name m.ID)).map
        (fun m => m.ID) := by
      intro hmem
      obtain ⟨x, hx, e⟩ := List.mem_map.mp hmem
      exact hpost m hm (by rw [← e]; exact List.mem_map_of_mem _ (List.mem_of_mem_filter hx))
    rw [decide_eq_false hnot, Bool.or_false]

/-- A run of amended C5: the test application, empty ledger, target the first
unit. -/
theorem C5_migrate_to_forward_witness :
    summary (MigrateTo emptyDB UserApp "0001_add_user").1.1 = [("0001_add_user", true)] ∧
      (MigrateTo emptyDB UserApp "0001_add_user").2.rows = [⟨1, "0001_add_user", "users"⟩] := by
  have h := C5_migrate_to_forward emptyDB UserApp [] [okUnit "0002_add_user_first_name"]
    (okUnit "0001_add_user") (fun _ => rfl) rfl (by decide) (by decide) (by decide) (by decide)
  obtain ⟨h1, h2, -⟩ := h
  refine ⟨?_, ?_⟩
  · exact (congrArg summary h1).trans (by decide)
  · exact h2.trans (by decide)

/-- C4, as stated, fails in four ways, each with the units `a`, `b` both
applied and the applied target `a`; the call returns no error every time.
When the store fails the `Delete` of the row of `b`, the unit `b` is reported as
reverted and keeps its row.  When the pair `(users, b)` has two rows, one of
them is left.  When the row of `b` has the primary key zero, it is not deleted.
When the rows of `a` and `b` have the same primary key, the target `a` loses its
row. -/
theorem C4_counterexample :
    ((twoUnits.Migrations.map (fun m => m.ID)).Nodup ∧
      hasRecord deleteOfSecondFailsDB.rows "users" "a" = true ∧
      (MigrateTo deleteOfSecondFailsDB twoUnits "a").1.2 = none ∧
      summary (MigrateTo deleteOfSecondFailsDB twoUnits "a").1.1 = [("b", false)] ∧
      hasRecord (MigrateTo deleteOfSecondFailsDB twoUnits "a").2.rows "users" "b" = true) ∧
    (hasRecord twoRowsForSecondDB.rows "users" "a" = true ∧
      (MigrateTo twoRowsForSecondDB twoUnits "a").1.2 = none ∧
      summary (MigrateTo twoRowsForSecondDB twoUnits "a").1.1 = [("b", false)] ∧
      hasRecord (MigrateTo twoRowsForSecondDB twoUnits "a").2.rows "users" "b" = true) ∧
    (hasRecord zeroKeyForSecondDB.rows "users" "a" = true ∧
      (MigrateTo zeroKeyForSecondDB twoUnits "a").1.2 = none ∧
      summary (MigrateTo zeroKeyForSecondDB twoUnits "a").1.1 = [("b", false)] ∧
      hasRecord (MigrateTo zeroKeyForSecondDB twoUnits "a").2.rows "users" "b" = true) ∧
    (hasRecord sharedKeyTwoDB.rows "users" "a" = true ∧
      (MigrateTo sharedKeyTwoDB twoUnits "a").1.2 = none ∧
      hasRecord (MigrateTo sharedKeyTwoDB twoUnits "a").2.rows "users" "a" = false) := by
  refine ⟨⟨by decide, by decide, by decide, by decide, by decide⟩,
    ⟨by decide, by decide, by decide, by decide⟩,
    ⟨by decide, by decide, by decide, by decide⟩,
    ⟨by decide, by decide, by decide⟩⟩

/-- C4, amended.  `MigrateTo` towards a target that is already applied, when no
store statement fails and the rows of the ledger have pairwise distinct
positive primary keys and at most one row per `(app name, unit ID)` pair: for
an application with pairwise distinct unit identifiers, declared as
`pre ++ t :: post`, whose target `t` has a ledger row, a call that returns no
error returns the applied units of `post` in reverse declared order, each with
`Applied = false`, has run the `down` of exactly those units in that order, and
has deleted exactly their rows; the target and every unit of `pre` keep their
rows and no unit of `post` has one afterwards.  When no unit of `post` is
applied, nothing is returned, no `down` runs and the ledger is unchanged. -/
theorem C4_migrate_to_applied {σ : Type} (db : DB σ) (app : Application σ)
    (pre post : List (GormMigration σ)) (t : GormMigration σ)
    (hstore : ∀ n, db.fault n = false)
    (hpositive : KeysPositive db.rows)
    (hdistinct : KeysDistinct db.rows)
    (hpairs : OneRowPerPair db.rows)
    (hdecl : app.Migrations = pre ++ t :: post)
    (hnodup : (app.Migrations.map (fun m => m.ID)).Nodup)
    (happlied : hasRecord db.rows app.Name t.ID = true)
    (hok : (MigrateTo db app t.ID).1.2 = none) :
    (MigrateTo db app t.ID).1.1 =
        (appliedUnits db.rows app.Name post).reverse.map (fun m => ⟨app, m, false⟩) ∧
      (MigrateTo db app t.ID).2.rows =
        withoutRecords db.rows app.Name (appliedUnits db.rows app.Name post) ∧
      (MigrateTo db app t.ID).2.schema =
        runDown db.schema (appliedUnits db.rows app.Name post).reverse ∧
      (MigrateTo db app t.ID).2.nextID = db.nextID ∧
      (∀ m ∈ pre ++ [t], hasRecord (MigrateTo db app t.ID).2.rows app.Name m.ID =
        hasRecord db.rows app.Name m.ID) ∧
      (∀ m ∈ post, hasRecord (MigrateTo db app t.ID).2.rows app.Name m.ID = false) ∧
      ((∀ m ∈ post, hasRecord db.rows app.Name m.ID = false) →
        (MigrateTo db app t.ID).1.1 = [] ∧ (MigrateTo db app t.ID).2.rows = db.rows ∧
          (MigrateTo db app t.ID).2.schema = db.schema) := by
  obtain ⟨rows, n, s, fault⟩ := db
  obtain rfl : fault = noFault := funext hstore
  simp only [] at happlied hpositive hdistinct hpairs ⊢
  have hledger := WellFormed_of_invariants hpositive hdistinct hpairs
  have hknown : t.ID = "zero" ∨ t.ID ∈ app.Migrations.map (fun m => m.ID) := by
    right; rw [hdecl]; simp
  rw [hdecl] at hnodup
  obtain ⟨-, hpost1, hpost⟩ := nodup_split hnodup
  have key : MigrateTo ⟨rows, n, s, noFault⟩ app t.ID =
      (((appliedUnits rows app.Name post).reverse.map (fun m => ⟨app, m, false⟩), none),
        ⟨withoutRecords rows app.Name (appliedUnits rows app.Name post), n,
          runDown s (appliedUnits rows app.Name post).reverse, noFault⟩) := by
    rw [MigrateTo_reverse_ok app t.ID rows n s hknown (Or.inr happlied) hok, hdecl,
      reverse_walk_split pre post t hpost1, List.filter_reverse,
      ← deleteRecords_reverse app.Name rows _ _ hledger]
    rfl
  rw [key]
  refine ⟨rfl, rfl, rfl, rfl, ?_, ?_, ?_⟩
  · intro m hm
    unfold withoutRecords
    rw [hasRecord_filter_out]
    have hnot : m.ID ∉ (appliedUnits rows app.Name post).map (fun m => m.ID) := by
      intro hmem
      obtain ⟨x, hx, e⟩ := List.mem_map.mp hmem
      exact hpost x (List.mem_of_mem_filter hx) (by rw [e]; exact List.mem_map_of_mem _ hm)
    rw [decide_eq_false hnot]; simp
  · intro m hm
    exact hasRecord_withoutRecords_applied rows app.Name post m hm
  · intro hnone
    have hnil : appliedUnits rows app.Name post = [] := by
      unfold appliedUnits
      rw [List.filter_eq_nil_iff]
      intro m hm
      simp [hnone m hm]
    rw [hnil]
    simp [withoutRecords, runDown]

/-- A run of amended C4: the scenario of the spec, reverting the synced test
application to its first unit. -/
theorem C4_migrate_to_applied_witness :
    summary (MigrateTo (Migrate emptyDB UserApp).2 UserApp "0001_add_user").1.1 =
        [("0002_add_user_first_name", false)] ∧
      (MigrateTo (Migrate emptyDB UserApp).2 UserApp "0001_add_user").2.rows =
        [⟨1, "0001_add_user", "users"⟩] := by
  have h := C4_migrate_to_applied (Migrate emptyDB UserApp).2 UserApp []
    [okUnit "0002_add_user_first_name"] (okUnit "0001_add_user") (fun _ => rfl)
    (by unfold KeysPositive; decide) (by unfold KeysDistinct; decide)
    (by unfold OneRowPerPair; decide) rfl (by decide) (by decide) (by decide)
  obtain ⟨h1, h2, -⟩ := h
  refine ⟨?_, ?_⟩
  · exact (congrArg summary h1).trans (by decide)
  · exact h2.trans (by decide)

/-- C6, as stated, fails in five ways; the calls return no error every time.
When the single declared unit is named `zero`, `Migrate` on an empty ledger
followed by `MigrateTo` with the sentinel runs no `down` and the unit keeps its
row.  With the single unit `a` applied: when the store fails the `Delete`, when
the pair `(users, a)` has two rows, and when the row has the primary key zero,
the unit `a` still has a ledger row afterwards.  When the empty ledger hands out
the primary key zero, `Migrate` followed by `MigrateTo` with the sentinel leaves
the row of `a`. -/
theorem C6_counterexample :
    ((Migrate emptyDB (Application.mk "users" [okUnit "zero"])).1.2 = none ∧
      (MigrateTo (Migrate emptyDB (Application.mk "users" [okUnit "zero"])).2
        (Application.mk "users" [okUnit "zero"]) "zero").1.2 = none ∧
      summary (MigrateTo (Migrate emptyDB (Application.mk "users" [okUnit "zero"])).2
        (Application.mk "users" [okUnit "zero"]) "zero").1.1 = [] ∧
      hasRecord (MigrateTo (Migrate emptyDB (Application.mk "users" [okUnit "zero"])).2
        (Application.mk "users" [okUnit "zero"]) "zero").2.rows "users" "zero" = true) ∧
    ((MigrateTo deleteFailsDB oneUnit "zero").1.2 = none ∧
      summary (MigrateTo deleteFailsDB oneUnit "zero").1.1 = [("a", false)] ∧
      hasRecord (MigrateTo deleteFailsDB oneUnit "zero").2.rows "users" "a" = true) ∧
    ((MigrateTo twoRowsForOnlyDB oneUnit "zero").1.2 = none ∧
      summary (MigrateTo twoRowsForOnlyDB oneUnit "zero").1.1 = [("a", false)] ∧
      hasRecord (MigrateTo twoRowsForOnlyDB oneUnit "zero").2.rows "users" "a" = true) ∧
    ((MigrateTo zeroKeyForOnlyDB oneUnit "zero").1.2 = none ∧
      summary (MigrateTo zeroKeyForOnlyDB oneUnit "zero").1.1 = [("a", false)] ∧
      hasRecord (MigrateTo zeroKeyForOnlyDB oneUnit "zero").2.rows "users" "a" = true) ∧
    (zeroNextKeyDB.rows = [] ∧
      (Migrate zeroNextKeyDB oneUnit).1.2 = none ∧
      (MigrateTo (Migrate zeroNextKeyDB oneUnit).2 oneUnit "zero").1.2 = none ∧
      (MigrateTo (Migrate zeroNextKeyDB oneUnit).2 oneUnit "zero").2.rows =
        [⟨0, "a", "users"⟩]) := by
  refine ⟨⟨by decide, by decide, by decide, by decide⟩, ⟨by decide, by decide, by decide⟩,
    ⟨by decide, by decide, by decide⟩, ⟨by decide, by decide, by decide⟩,
    ⟨rfl, by decide, by decide, by decide⟩⟩

/-- C6, amended.  `MigrateTo` with the sentinel `"zero"`, for an application
none of whose units is named `zero`.  When no store statement fails and the
rows of the ledger have positive primary keys and at most one row per
`(app name, unit ID)` pair, a call that returns no error walks the whole
declared list from its end, returns every declared unit that had a ledger row,
last declared first, with `Applied = false`, has run the `down` of exactly those
units in that order, deletes rows only, and leaves no declared unit of the
application with a ledger row.  In particular, when no store statement fails, a
successful `Migrate` on an empty ledger whose next primary key is positive,
followed by a successful `MigrateTo "zero"`, leaves no ledger row. -/
theorem C6_migrate_to_zero {σ : Type} (app : Application σ)
    (hzero : ∀ m ∈ app.Migrations, m.ID ≠ "zero") :
    (∀ db : DB σ, (∀ n, db.fault n = false) → KeysPositive db.rows → OneRowPerPair db.rows →
      (MigrateTo db app "zero").1.2 = none →
      (MigrateTo db app "zero").1.1 =
        (appliedUnits db.rows app.Name app.Migrations).reverse.map
          (fun m => ⟨app, m, false⟩) ∧
      (MigrateTo db app "zero").2.schema =
        runDown db.schema (appliedUnits db.rows app.Name app.Migrations).reverse ∧
      (MigrateTo db app "zero").2.rows.Sublist db.rows ∧
      (∀ m ∈ app.Migrations,
        hasRecord (MigrateTo db app "zero").2.rows app.Name m.ID = false)) ∧
    (∀ (n : Nat) (s : σ) (fault : Nat → Bool), (∀ k, fault k = false) →
      (Migrate ⟨[], n + 1, s, fault⟩ app).1.2 = none →
      (MigrateTo (Migrate ⟨[], n + 1, s, fault⟩ app).2 app "zero").1.2 = none →
      (MigrateTo (Migrate ⟨[], n + 1, s, fault⟩ app).2 app "zero").2.rows = []) := by
  constructor
  · intro db hstore hpos hpairs hok
    obtain ⟨rows, n, s, fault⟩ := db
    obtain rfl : fault = noFault := funext hstore
    exact MigrateTo_zero_clears app rows n s hpos hpairs hzero hok
  · intro n s fault hstore hmig
    obtain rfl : fault = noFault := funext hstore
    rw [Migrate_ok app [] (n + 1) s hmig]
    intro hok
    obtain ⟨hnd, hprops⟩ := newlyApplied_props [] app.Name app.Migrations []
    have hwf : WellFormed ([] ++ recordsFrom app.Name (n + 1)
        (newlyApplied [] app.Name [] app.Migrations))
        (n + 1 + (newlyApplied [] app.Name [] app.Migrations).length) :=
      WellFormed_append app.Name (newlyApplied [] app.Name [] app.Migrations)
        ⟨Nat.succ_pos n, by simp, by simp, by simp⟩ hnd (fun m hm => (hprops m hm).2.1)
    obtain ⟨-, -, hsub, hclear⟩ := MigrateTo_zero_clears app _ _ _
      (fun r hr => (hwf.2.1 r hr).1) hwf.2.2.2 hzero hok
    rw [List.eq_nil_iff_forall_not_mem]
    intro r hr
    have hr1 := hsub.subset hr
    have hr2 : r ∈ recordsFrom app.Name (n + 1) (newlyApplied [] app.Name [] app.Migrations) := by
      simpa using hr1
    obtain ⟨ha, m, hm, hid⟩ := mem_recordsFrom hr2
    have := hclear m (hprops m hm).1
    rw [(hasRecord_iff _ _ _).mpr ⟨r, hr, hid, ha⟩] at this
    cases this

/-- A run of amended C6: the scenario of `TestMigrate`, sync then `"zero"`. -/
theorem C6_migrate_to_zero_witness :
    summary (MigrateTo (Migrate emptyDB UserApp).2 UserApp "zero").1.1 =
        [("0002_add_user_first_name", false), ("0001_add_user", false)] ∧
      (MigrateTo (Migrate emptyDB UserApp).2 UserApp "zero").2.rows = [] := by
  have h := C6_migrate_to_zero UserApp (by decide)
  refine ⟨?_, h.2 0 [] noFault (fun _ => rfl) (by decide) (by decide)⟩
  have h1 := (h.1 (Migrate emptyDB UserApp).2 (fun _ => rfl) (by unfold KeysPositive; decide)
    (by unfold OneRowPerPair; decide) (by decide)).1
  exact (congrArg summary h1).trans (by decide)

/-- C1: an `up` that fails in the middle of `Migrate` leaves the row of the
unit applied before it.  Two declared units, the second with a failing `up`,
empty ledger: `Migrate` returns an error and the ledger, empty before the
call, holds the row of the first unit. -/
theorem C1_failed_sync_keeps_rows :
    emptyDB.rows = [] ∧
      (Migrate emptyDB (Application.mk "users" [okUnit "a", failUnit "b"])).1.2 ≠ none ∧
      (Migrate emptyDB (Application.mk "users" [okUnit "a", failUnit "b"])).2.rows =
        [⟨1, "a", "users"⟩] ∧
      (MigrateTo emptyDB (Application.mk "users" [okUnit "a", failUnit "b"]) "b").1.2 ≠ none ∧
      (MigrateTo emptyDB (Application.mk "users" [okUnit "a", failUnit "b"]) "b").2.rows =
        [⟨1, "a", "users"⟩] := by
  refine ⟨rfl, by decide, by decide, by decide, by decide⟩

/-- C10: a failed deletion is not reported.  The only unit is applied, its
`down` succeeds and the `Delete` of its row fails with a driver error:
`applyMigration` (here its third statement fails) returns a status, not an
error; `MigrateTo "zero"` returns no error and reports the unit as reverted,
and the row is still in the ledger. -/
theorem C10_delete_failure_unreported :
    (applyMigration (DB.mk [⟨1, "a", "users"⟩] 2 ([] : List String) (fun n => n == 2))
        (Application.mk "users" [okUnit "a"]) (okUnit "a") false).1.toOption.map
          (fun st => (st.Migration.ID, st.Applied)) = some ("a", false) ∧
      (applyMigration (DB.mk [⟨1, "a", "users"⟩] 2 ([] : List String) (fun n => n == 2))
        (Application.mk "users" [okUnit "a"]) (okUnit "a") false).2.rows =
          [⟨1, "a", "users"⟩] ∧
      (MigrateTo deleteFailsDB (Application.mk "users" [okUnit "a"]) "zero").1.2 = none ∧
      summary (MigrateTo deleteFailsDB (Application.mk "users" [okUnit "a"]) "zero").1.1 =
        [("a", false)] ∧
      (MigrateTo deleteFailsDB (Application.mk "users" [okUnit "a"]) "zero").2.rows =
        [⟨1, "a", "users"⟩] := by
  refine ⟨by decide, by decide, by decide, by decide, by decide⟩

/-- C2, as stated, fails in four ways; the unit identifiers are pairwise
distinct, every declared unit has a ledger row before the call, and the call
returns no error every time.  With the units `a`, `b` and the target `"zero"`:
when the store fails the `Delete` of the row of `b`, when the pair `(users, b)`
has two rows, and when the row of `b` has the primary key zero, the unit `b`
keeps a row while `a` loses its row.  With the units `a`, `b`, `c` and the target
`b`: when the rows of `a` and `c` have the same primary key, reverting `c` also
deletes the row of `a`.  In all four the units with a ledger row are then not a
leading run of the declared list. -/
theorem C2_counterexample :
    ((twoUnits.Migrations.map (fun m => m.ID)).Nodup ∧
      AppliedRun deleteOfSecondFailsDB.rows twoUnits 2 ∧
      (MigrateTo deleteOfSecondFailsDB twoUnits "zero").1.2 = none ∧
      (MigrateTo deleteOfSecondFailsDB twoUnits "zero").2.rows = [⟨2, "b", "users"⟩] ∧
      ¬ ∃ j, AppliedRun (MigrateTo deleteOfSecondFailsDB twoUnits "zero").2.rows twoUnits j) ∧
    (AppliedRun twoRowsForSecondDB.rows twoUnits 2 ∧
      (MigrateTo twoRowsForSecondDB twoUnits "zero").1.2 = none ∧
      (MigrateTo twoRowsForSecondDB twoUnits "zero").2.rows = [⟨3, "b", "users"⟩] ∧
      ¬ ∃ j, AppliedRun (MigrateTo twoRowsForSecondDB twoUnits "zero").2.rows twoUnits j) ∧
    (AppliedRun zeroKeyForSecondDB.rows twoUnits 2 ∧
      (MigrateTo zeroKeyForSecondDB twoUnits "zero").1.2 = none ∧
      (MigrateTo zeroKeyForSecondDB twoUnits "zero").2.rows = [⟨0, "b", "users"⟩] ∧
      ¬ ∃ j, AppliedRun (MigrateTo zeroKeyForSecondDB twoUnits "zero").2.rows twoUnits j) ∧
    ((threeUnits.Migrations.map (fun m => m.ID)).Nodup ∧
      AppliedRun sharedKeyThreeDB.rows threeUnits 3 ∧
      (MigrateTo sharedKeyThreeDB threeUnits "b").1.2 = none ∧
      (MigrateTo sharedKeyThreeDB threeUnits "b").2.rows = [⟨2, "b", "users"⟩] ∧
      ¬ ∃ j, AppliedRun (MigrateTo sharedKeyThreeDB threeUnits "b").2.rows threeUnits j) := by
  refine ⟨⟨by decide, by unfold AppliedRun; decide, by decide, by decide, ?_⟩,
    ⟨by unfold AppliedRun; decide, by decide, by decide, ?_⟩,
    ⟨by unfold AppliedRun; decide, by decide, by decide, ?_⟩,
    ⟨by decide, by unfold AppliedRun; decide, by decide, by decide, ?_⟩⟩
  · exact not_appliedRun_of_gap _ "users" (okUnit "a") (okUnit "b") [okUnit "b"]
      (List.mem_singleton.mpr rfl) (by decide) (by decide)
  · exact not_appliedRun_of_gap _ "users" (okUnit "a") (okUnit "b") [okUnit "b"]
      (List.mem_singleton.mpr rfl) (by decide) (by decide)
  · exact not_appliedRun_of_gap _ "users" (okUnit "a") (okUnit "b") [okUnit "b"]
      (List.mem_singleton.mpr rfl) (by decide) (by decide)
  · exact not_appliedRun_of_gap _ "users" (okUnit "a") (okUnit "b")
      [okUnit "b", okUnit "c"] (List.mem_cons_self _ _) (by decide) (by decide)

/-- C2, amended.  The applied units stay a leading run of the declared list,
for an application with pairwise distinct unit identifiers, when no store
statement fails.  If the rows of the ledger have pairwise distinct positive
primary keys and at most one row per `(app name, unit ID)` pair, and the ledger
holds a row of the application for exactly the first `k` declared units, then
after a `Migrate`, a `MigrateTo` (any target) or a `ShowMigrationsForApp` that
returns no error it holds one for exactly the first `j` declared units, for
some `j` up to the number of units.  Hence the same is true after every
sequence of successful calls that starts from an empty ledger. -/
theorem C2_applied_run_invariant {σ : Type} (app : Application σ)
    (hnodup : (app.Migrations.map (fun m => m.ID)).Nodup) :
    (∀ (db : DB σ) (c : Call) (k : Nat), (∀ n, db.fault n = false) →
        KeysPositive db.rows → KeysDistinct db.rows → OneRowPerPair db.rows →
        k ≤ app.Migrations.length → AppliedRun db.rows app k →
        (c.run db app).1.2 = none →
        ∃ j, j ≤ app.Migrations.length ∧ AppliedRun (c.run db app).2.rows app j) ∧
    (∀ (db : DB σ) (calls : List Call) (db1 : DB σ), (∀ n, db.fault n = false) →
        db.rows = [] → runCalls app calls db = some db1 →
        ∃ j, j ≤ app.Migrations.length ∧ AppliedRun db1.rows app j) := by
  constructor
  · intro db c k hstore hpos hdist hpairs hk hrun hok
    obtain ⟨rows, n, s, fault⟩ := db
    obtain rfl : fault = noFault := funext hstore
    obtain ⟨rows1, n1, s1, h1, -, hrun1⟩ :=
      call_step app hnodup c rows n s _ (WellFormed_of_invariants hpos hdist hpairs)
        ⟨k, hk, hrun⟩ hok
    rw [h1]
    exact hrun1
  · intro db calls db1 hstore hempty hcalls
    obtain ⟨rows, n, s, fault⟩ := db
    obtain rfl : fault = noFault := funext hstore
    simp only [] at hempty
    subst hempty
    refine runCalls_reachable app hnodup calls [] n s db1 ?_ ⟨0, Nat.zero_le _, ?_⟩ hcalls
    · refine ⟨?_, ?_, ?_, ?_⟩
      · unfold KeysDistinct; simp
      · intro r hr; cases hr
      · unfold OneRowPerPair; simp
      · intro r hr; cases hr
    · intro x _
      simp [hasRecord]

/-- A run of amended C2: sync the test application, then go back to its first
unit; the ledger holds a row for exactly the first unit. -/
theorem C2_applied_run_invariant_witness :
    ∃ j, j ≤ 2 ∧
      AppliedRun (MigrateTo (Migrate emptyDB UserApp).2 UserApp "0001_add_user").2.rows
        UserApp j :=
  (C2_applied_run_invariant UserApp (by decide)).2 emptyDB
    [Call.migrate, Call.migrateTo "0001_add_user"]
    (MigrateTo (Migrate emptyDB UserApp).2 UserApp "0001_add_user").2 (fun _ => rfl) rfl rfl

end GormAppMigrate
